import Mathlib

/-!
A verification development for the asynchronous iteration engine of the
streamo library (src/AsyncIterables.ts, src/Transformers.ts and the
AsyncStream facade).

Modelling conventions, used throughout:

* Optional values (the TypeScript Optional and a resolved AsyncOptional) are
  modelled as Option.
* Sequential (non-overlapping) use of an AsyncIterable is modelled as a pure
  state machine: next takes a state and returns the new state paired with an
  Option value, stop takes a state to a state.  In strictly sequential use
  the cooperative single-threaded scheduler never interleaves two pulls, so
  every await resumes with no intervening state change and the promise layer
  can be erased.
* While loops of the source are modelled either by structural recursion on
  the data that the loop consumes, or by an explicit fuel parameter when the
  loop is not structurally bounded.
* Concurrent overlapping pulls (the limiting gate) and the buffering engine
  are modelled separately as explicit transition systems; see the comments
  at those definitions.
-/

namespace Streamo

/-- The AsyncIterable contract of src/AsyncIterables.ts, sequential model: a
state type together with the two operations next and stop.  next returns the
updated state and the resolved AsyncOptional (modelled as Option).  stop
returns the updated state. -/
structure AsyncIterable (σ : Type u) (T : Type v) where
  next : σ → σ × Option T
  stop : σ → σ

/-- iterableToAsync over an ArrayIterable (src/AsyncIterables.ts lines 74 to
84 with src/Iterables.ts ArrayIterable): the state is the list of elements
not yet produced.  next pops the head when hasNext, otherwise returns empty.
stop is a noop, exactly as in the source. -/
def iterableToAsync {T : Type v} : AsyncIterable (List T) T where
  next s :=
    match s with
    | [] => ([], none)
    | x :: xs => (xs, some x)
  stop s := s

/-- generatingIterable (src/AsyncIterables.ts lines 34 to 39) for a stateful
generator: next runs the generator, stop is a noop. -/
def generatingIterable {γ : Type u} {T : Type v} (generator : γ → γ × Option T) :
    AsyncIterable γ T where
  next := generator
  stop s := s

/-- emptyAsyncIterable (src/AsyncIterables.ts lines 23 to 26): next always
returns empty, stop is a noop. -/
def emptyAsyncIterable {T : Type v} : AsyncIterable Unit T where
  next s := (s, none)
  stop s := s

/-- mappedAsyncIterable (src/AsyncIterables.ts lines 124 to 130): next pulls
one upstream value and maps it when present; stop forwards to upstream with
no state of its own. -/
def mappedAsyncIterable {σ : Type u} {T : Type v} {R : Type w}
    (iterable : AsyncIterable σ T) (mapper : T → R) : AsyncIterable σ R where
  next s :=
    let p := iterable.next s
    (p.1, p.2.map mapper)
  stop := iterable.stop

/-- The state of filteredAsyncIterable: the stopped flag of the closure plus
the upstream state. -/
structure FilterState (σ : Type u) where
  stopped : Bool
  up : σ

/-- The while loop in the next of filteredAsyncIterable (src/AsyncIterables.ts
lines 98 to 110), by structural recursion on the fuel.  Each iteration pulls
one upstream value: if upstream is exhausted it returns empty, if the value
passes the predicate it is returned, otherwise the loop repeats.  The stopped
flag cannot change during a sequential call, so the loop only terminates via
those two returns; the fuel bounds the number of iterations of the model. -/
def filteredNextLoop {σ : Type u} {T : Type v} (iterable : AsyncIterable σ T)
    (predicate : T → Bool) : Nat → FilterState σ → FilterState σ × Option T
  | 0, st => (st, none)
  | fuel + 1, st =>
    if st.stopped then (st, none)
    else
      let p := iterable.next st.up
      match p.2 with
      | none => ({ st with up := p.1 }, none)
      | some t =>
        if predicate t then ({ st with up := p.1 }, some t)
        else filteredNextLoop iterable predicate fuel { st with up := p.1 }

/-- filteredAsyncIterable (src/AsyncIterables.ts lines 92 to 116): next runs
the filtering loop with the given fuel; stop sets the stopped flag and
forwards to upstream. -/
def filteredAsyncIterable {σ : Type u} {T : Type v} (iterable : AsyncIterable σ T)
    (predicate : T → Bool) (fuel : Nat) : AsyncIterable (FilterState σ) T where
  next := filteredNextLoop iterable predicate fuel
  stop st := { stopped := true, up := iterable.stop st.up }

/-- The state of limitingIterable: the stop flag and count of the closure
plus the upstream state. -/
structure LimitState (σ : Type u) where
  stop : Bool
  count : Nat
  up : σ

/-- limitingIterable (src/AsyncIterables.ts lines 245 to 275), sequential
model.  next: if stopped return empty; if the count has reached max, stop the
source, set the flag and return empty; otherwise pull one value, re-check the
count and flag (in sequential use nothing can have changed across the await),
increment the count and return the pulled value.  stop stops the source and
sets the flag. -/
def limitingIterable {σ : Type u} {T : Type v} (source : AsyncIterable σ T)
    (max : Nat) : AsyncIterable (LimitState σ) T where
  next st :=
    if st.stop then (st, none)
    else if max ≤ st.count then
      ({ stop := true, count := st.count, up := source.stop st.up }, none)
    else
      let p := source.next st.up
      -- it is possible some other promise has already beaten us to this item;
      -- in the sequential model the re-check always passes
      if st.count < max ∧ st.stop = false then
        ({ st with count := st.count + 1, up := p.1 }, p.2)
      else ({ st with up := p.1 }, none)
  stop st := { st with stop := true, up := source.stop st.up }

/-- The initial state of a limitingIterable over a fresh upstream state. -/
def limitInit {σ : Type u} (s0 : σ) : LimitState σ :=
  { stop := false, count := 0, up := s0 }

/-- Drive an iterable strictly sequentially for n calls to next, collecting
the n results in order. -/
def seqRun {σ : Type u} {T : Type v} (it : AsyncIterable σ T) :
    Nat → σ → List (Option T) × σ
  | 0, s => ([], s)
  | n + 1, s =>
    let p := it.next s
    let r := seqRun it n p.1
    (p.2 :: r.1, r.2)

theorem seqRun_append {σ : Type u} {T : Type v} (it : AsyncIterable σ T)
    (m n : Nat) (s : σ) :
    seqRun it (m + n) s =
      ((seqRun it m s).1 ++ (seqRun it n (seqRun it m s).2).1,
        (seqRun it n (seqRun it m s).2).2) := by
  induction m generalizing s with
  | zero => simp [seqRun, Nat.zero_add]
  | succ m ih =>
    have : m + 1 + n = (m + n) + 1 := by omega
    rw [this]
    simp only [seqRun]
    rw [ih]
    simp

theorem limiting_stopped_run {σ : Type u} {T : Type v} (source : AsyncIterable σ T)
    (max : Nat) (m : Nat) (st : LimitState σ) (h : st.stop = true) :
    (seqRun (limitingIterable source max) m st).1 = List.replicate m none := by
  induction m generalizing st with
  | zero => rfl
  | succ m ih =>
    simp only [seqRun, limitingIterable, h, if_true, List.replicate]
    exact congrArg _ (ih st h)

theorem limiting_capped_run {σ : Type u} {T : Type v} (source : AsyncIterable σ T)
    (max : Nat) (m : Nat) (c : Nat) (s : σ) (h : max ≤ c) :
    (seqRun (limitingIterable source max) m ⟨false, c, s⟩).1 =
      List.replicate m none := by
  cases m with
  | zero => rfl
  | succ m =>
    simp only [seqRun, limitingIterable, if_neg (Bool.false_ne_true), if_pos h,
      List.replicate]
    exact congrArg _ (limiting_stopped_run source max m _ rfl)

theorem limiting_next_cons {T : Type v} (n c : Nat) (x : T) (rest : List T)
    (hlt : c < n) :
    (limitingIterable iterableToAsync n).next ⟨false, c, x :: rest⟩ =
      (⟨false, c + 1, rest⟩, some x) := by
  simp only [limitingIterable, iterableToAsync, if_neg (Bool.false_ne_true),
    if_neg (by omega : ¬ n ≤ c)]
  rw [if_pos (show c < n ∧ True from ⟨hlt, trivial⟩)]

theorem limiting_next_nil {T : Type v} (n c : Nat) (hlt : c < n) :
    (limitingIterable iterableToAsync n).next ⟨false, c, ([] : List T)⟩ =
      (⟨false, c + 1, []⟩, none) := by
  simp only [limitingIterable, iterableToAsync, if_neg (Bool.false_ne_true),
    if_neg (by omega : ¬ n ≤ c)]
  rw [if_pos (show c < n ∧ True from ⟨hlt, trivial⟩)]

theorem limiting_seq_run {T : Type v} (n : Nat) (m : Nat) (c : Nat) (xs : List T)
    (hc : c ≤ n) :
    (seqRun (limitingIterable iterableToAsync n) m ⟨false, c, xs⟩).1 =
      (xs.take (min m (n - c))).map some ++
        List.replicate (m - min (min m (n - c)) xs.length) none := by
  induction m generalizing c xs with
  | zero => simp [seqRun]
  | succ m ih =>
    by_cases hcap : n ≤ c
    · have hq : n - c = 0 := by omega
      rw [limiting_capped_run iterableToAsync n (m + 1) c xs hcap]
      simp [hq]
    · have hlt : c < n := by omega
      cases xs with
      | nil =>
        simp only [seqRun, limiting_next_nil n c hlt]
        rw [ih (c + 1) [] (by omega)]
        simp [List.replicate_succ]
      | cons x rest =>
        simp only [seqRun, limiting_next_cons n c x rest hlt]
        rw [ih (c + 1) rest (by omega)]
        have h1 : min (m + 1) (n - c) = min m (n - (c + 1)) + 1 := by omega
        have h2 : min (min (m + 1) (n - c)) (x :: rest).length =
            min (min m (n - (c + 1))) rest.length + 1 := by
          simp only [List.length_cons]; omega
        rw [h2, h1, List.take_succ_cons]
        simp only [List.map_cons, List.cons_append]
        congr 2
        congr 1
        omega

/-- C2: limitingIterable over a finite source, pulled strictly sequentially
n + k times, returns exactly the first n values of the source in source
order, followed by absent on every later call (when the source holds fewer
than n values, the calls past exhaustion return absent as well). -/
theorem limitingIterable_sequential {T : Type v} (xs : List T) (n k : Nat) :
    (seqRun (limitingIterable iterableToAsync n) (n + k) (limitInit xs)).1 =
      (xs.take n).map some ++
        List.replicate (n + k - min n xs.length) none := by
  have h := limiting_seq_run n (n + k) 0 xs (Nat.zero_le n)
  have h1 : min (n + k) (n - 0) = n := by omega
  rw [h1] at h
  simpa [limitInit] using h

/-!
Concurrent model of limitingIterable (src/AsyncIterables.ts lines 245 to
275).  The next function has exactly one suspension point, the await of
source.next().  The code from the top of next up to that await runs
atomically, and the code after the await (the re-check, the increment and
the return) runs atomically as well: the scheduler is single threaded and
cooperative.  A pull is therefore a task with two atomic phases.  The value
an in-flight pull will receive from the source is fixed when the fetch is
issued and is arbitrary here (the source is unconstrained), so the scheduler
event that starts a pull carries the Option value its fetch resolves to.
-/

/-- An in-flight or completed pull on the concurrent limiting gate: either
awaiting the source fetch that resolves to the recorded value, or done with
the recorded downstream result. -/
inductive LimitTask (T : Type v) where
  | awaiting (v : Option T) : LimitTask T
  | done (res : Option T) : LimitTask T
deriving DecidableEq

/-- The shared state of the concurrent limiting gate: the closure variables
stop and count, plus the status of every pull started so far. -/
structure LimitCfg (T : Type v) where
  stop : Bool
  count : Nat
  tasks : List (LimitTask T)
deriving DecidableEq

/-- A scheduler event: start a fresh overlapping call to next (its fetch,
if issued, will resolve to the carried value), or resume the in-flight call
at the given index after its source fetch resolved. -/
inductive LimitEvent (T : Type v) where
  | start (v : Option T) : LimitEvent T
  | resume (i : Nat) : LimitEvent T
deriving DecidableEq

/-- The first atomic phase of next (src/AsyncIterables.ts lines 252 to 261):
if stopped, complete with empty; if the count has reached max, stop the
source, set the flag and complete with empty; otherwise issue the fetch and
suspend. -/
def limitStart {T : Type v} (max : Nat) (c : LimitCfg T) (v : Option T) :
    LimitCfg T :=
  if c.stop then { c with tasks := c.tasks ++ [.done none] }
  else if max ≤ c.count then
    { c with stop := true, tasks := c.tasks ++ [.done none] }
  else { c with tasks := c.tasks ++ [.awaiting v] }

/-- The second atomic phase of next (src/AsyncIterables.ts lines 263 to 268):
when the awaited fetch has resolved, re-check the count and the flag; if the
count is still below max, increment it and deliver the fetched value,
otherwise discard the fetched value and deliver empty. -/
def limitResume {T : Type v} (max : Nat) (c : LimitCfg T) (i : Nat) :
    LimitCfg T :=
  match c.tasks[i]? with
  | some (.awaiting v) =>
    if c.count < max ∧ c.stop = false then
      { c with count := c.count + 1, tasks := c.tasks.set i (.done v) }
    else { c with tasks := c.tasks.set i (.done none) }
  | _ => c

/-- One scheduler step of the concurrent limiting gate. -/
def limitStep {T : Type v} (max : Nat) (c : LimitCfg T) :
    LimitEvent T → LimitCfg T
  | .start v => limitStart max c v
  | .resume i => limitResume max c i

/-- Run the concurrent limiting gate from the initial configuration through
an arbitrary finite schedule of overlapping pulls and resumptions. -/
def limitRun {T : Type v} (max : Nat) (events : List (LimitEvent T)) :
    LimitCfg T :=
  events.foldl (limitStep max) { stop := false, count := 0, tasks := [] }

/-- Does a task hold a delivered non-absent result? -/
def doneSome {T : Type v} : LimitTask T → Bool
  | .done (some _) => true
  | _ => false

/-- The number of non-absent results delivered downstream so far. -/
def LimitCfg.deliveredCount {T : Type v} (c : LimitCfg T) : Nat :=
  c.tasks.countP doneSome

theorem countP_set_of_not {α : Type u} (p : α → Bool) (l : List α) (i : Nat)
    (b : α) (h : i < l.length) (hold : p (l.get ⟨i, h⟩) = false) :
    (l.set i b).countP p = l.countP p + (if p b then 1 else 0) := by
  rw [List.set_eq_take_cons_drop b h]
  conv_rhs => rw [← List.take_append_drop i l]
  rw [List.drop_eq_getElem_cons h]
  rw [List.get_eq_getElem] at hold
  simp only [List.countP_append, List.countP_cons, hold]
  by_cases hb : p b <;> simp [hb] <;> omega

/-- The inductive invariant of the concurrent limiting gate: at most count
values were ever delivered, and count never passes max. -/
def LimitInv {T : Type v} (max : Nat) (c : LimitCfg T) : Prop :=
  c.deliveredCount ≤ c.count ∧ c.count ≤ max

theorem limitStep_inv {T : Type v} (max : Nat) (c : LimitCfg T)
    (e : LimitEvent T) (h : LimitInv max c) :
    LimitInv max (limitStep max c e) := by
  obtain ⟨h1, h2⟩ := h
  cases e with
  | start v =>
    simp only [limitStep, limitStart]
    split
    · exact ⟨by simpa [LimitCfg.deliveredCount, doneSome] using h1, h2⟩
    · split
      · exact ⟨by simpa [LimitCfg.deliveredCount, doneSome] using h1, h2⟩
      · exact ⟨by simpa [LimitCfg.deliveredCount, doneSome] using h1, h2⟩
  | resume i =>
    simp only [limitStep, limitResume]
    cases hg : c.tasks[i]? with
    | none => exact ⟨h1, h2⟩
    | some t =>
      cases t with
      | done r => exact ⟨h1, h2⟩
      | awaiting v =>
        have hi : i < c.tasks.length := by
          by_contra hcon
          rw [List.getElem?_eq_none (by omega)] at hg
          exact Option.noConfusion hg
        have hget : c.tasks.get ⟨i, hi⟩ = .awaiting v := by
          have h2g := List.getElem?_eq_getElem hi
          rw [hg] at h2g
          have : c.tasks[i] = LimitTask.awaiting v :=
            (Option.some.injEq _ _).mp h2g.symm
          exact this
        have hold : doneSome (c.tasks.get ⟨i, hi⟩) = false := by
          rw [hget]; rfl
        show LimitInv max
          (if c.count < max ∧ c.stop = false then
            { c with count := c.count + 1, tasks := c.tasks.set i (.done v) }
          else { c with tasks := c.tasks.set i (.done none) })
        split
        · rename_i hcnt
          obtain ⟨hlt2, hst⟩ := hcnt
          refine ⟨?_, by show c.count + 1 ≤ max; omega⟩
          show (c.tasks.set i (.done v)).countP doneSome ≤ c.count + 1
          rw [countP_set_of_not doneSome c.tasks i _ hi hold]
          have hdel : c.tasks.countP doneSome ≤ c.count := h1
          split <;> omega
        · refine ⟨?_, h2⟩
          show (c.tasks.set i (.done none)).countP doneSome ≤ c.count
          rw [countP_set_of_not doneSome c.tasks i _ hi hold]
          simpa [doneSome] using h1

theorem limitRun_inv {T : Type v} (max : Nat) (events : List (LimitEvent T))
    (c : LimitCfg T) (h : LimitInv max c) :
    LimitInv max (events.foldl (limitStep max) c) := by
  induction events generalizing c with
  | nil => exact h
  | cons e rest ih => exact ih _ (limitStep_inv max c e h)

/-- C3: under any schedule of concurrent overlapping next() calls on
limitingIterable (any interleaving of the single threaded cooperative
scheduler, with arbitrary values resolved by the in-flight source fetches),
the total number of non-absent results ever delivered never exceeds max.
The model may deliver fewer than max, as the claim allows. -/
theorem limitingIterable_concurrent_bound {T : Type v} (max : Nat)
    (events : List (LimitEvent T)) :
    (limitRun max events).deliveredCount ≤ max := by
  have h := limitRun_inv max events { stop := false, count := 0, tasks := [] }
    ⟨Nat.le.refl, Nat.zero_le max⟩
  exact le_trans h.1 h.2

/-!
Sequential model of flatMappedAsyncIterable (src/AsyncIterables.ts lines 138
to 190).  The closure state is the done flag, the list availableIterables of
inner iterables still to drain, and the upstream.  Inner iterables come from
AsyncStream.ofArray (an ArrayIterable converted by iterableToAsync), so each
is modelled by its list of remaining elements; the initial placeholder
emptyAsyncIterable is modelled by the empty list.  Under strictly sequential
consumption the awaiting counter is zero whenever the loop condition is
checked (it is incremented and decremented within a single iteration and no
other pull interleaves), so the condition !done && (awaiting ||
availableIterables.length) reduces to !done && availableIterables.length,
and the sleep branch for an arriving batch is unreachable. -/

/-- The closure state of flatMappedAsyncIterable over a list upstream. -/
structure FlatMapState (T : Type u) (R : Type v) where
  done : Bool
  available : List (List R)
  src : List T
deriving DecidableEq

/-- The while loop of next in flatMappedAsyncIterable: drain the first
available inner iterable; once it is exhausted shift it off and, if no
batch remains, pull the next upstream element and push the inner stream
obtained by mapping it; when upstream and inner iterables are all exhausted
the loop condition fails and the call reports empty.  The fuel bounds the
loop iterations of the model. -/
def flatMappedNext {T : Type u} {R : Type v} (mapper : T → List R) :
    Nat → FlatMapState T R → FlatMapState T R × Option R
  | 0, st => (st, none)
  | fuel + 1, st =>
    if st.done then (st, none)
    else
      match st.available with
      | [] => (st, none)
      | thisBatch :: tailBatches =>
        match thisBatch with
        | r :: rs => ({ st with available := rs :: tailBatches }, some r)
        | [] =>
          -- this batch is used up: shift it, then fetch the next batch when
          -- no other batch remains
          match tailBatches, st.src with
          | [], [] => flatMappedNext mapper fuel { st with available := [] }
          | [], t :: ts =>
            flatMappedNext mapper fuel
              { st with available := [mapper t], src := ts }
          | b :: bs, _ =>
            flatMappedNext mapper fuel { st with available := b :: bs }

/-- stop of flatMappedAsyncIterable: set done and forward to the upstream
(whose stop, for a converted synchronous iterable, is a noop). -/
def flatMappedStop {T : Type u} {R : Type v} (st : FlatMapState T R) :
    FlatMapState T R :=
  { st with done := true }

/-- The initial state of flatMappedAsyncIterable: not done, the placeholder
empty iterable as the only available batch, the full upstream. -/
def flatMappedInit {T : Type u} {R : Type v} (src : List T) : FlatMapState T R :=
  { done := false, available := [[]], src := src }

/-- The elements a flat-map state still has to deliver, in order. -/
def fmRemainder {T : Type u} {R : Type v} (mapper : T → List R)
    (st : FlatMapState T R) : List R :=
  st.available.flatten ++ st.src.flatMap mapper

/-- States reachable by sequential consumption: not done, and the available
list is only empty once upstream is exhausted. -/
def FMGood {T : Type u} {R : Type v} (st : FlatMapState T R) : Prop :=
  st.done = false ∧ (st.available ≠ [] ∨ st.src = [])

theorem flatMappedNext_spec {T : Type u} {R : Type v} (mapper : T → List R) :
    ∀ (fuel : Nat) (st : FlatMapState T R), FMGood st →
      st.available.length + st.src.length + 1 ≤ fuel →
      ∃ st', flatMappedNext mapper fuel st = (st', (fmRemainder mapper st).head?) ∧
        FMGood st' ∧ fmRemainder mapper st' = (fmRemainder mapper st).tail := by
  intro fuel
  induction fuel with
  | zero => intro st hg hf; omega
  | succ fuel ih =>
    intro st hg hf
    obtain ⟨hdone, hav⟩ := hg
    obtain ⟨d, av, src⟩ := st
    simp only at hdone
    subst hdone
    match av, src with
    | [], src =>
      have hsrc : src = [] := by
        rcases hav with h | h
        · exact absurd rfl h
        · exact h
      subst hsrc
      exact ⟨⟨false, [], []⟩, by simp [flatMappedNext, fmRemainder],
        ⟨rfl, Or.inr rfl⟩, by simp [fmRemainder]⟩
    | (r :: rs) :: tb, src =>
      exact ⟨⟨false, rs :: tb, src⟩, by simp [flatMappedNext, fmRemainder],
        ⟨rfl, Or.inl (by simp)⟩, by simp [fmRemainder]⟩
    | [] :: tb, src =>
      match tb, src with
      | [], [] =>
        have hm : (0 : Nat) + 0 + 1 ≤ fuel := by
          simp only [List.length_cons, List.length_nil] at hf; omega
        obtain ⟨st', heq, hg', hr'⟩ :=
          ih { done := false, available := [], src := [] } ⟨rfl, Or.inr rfl⟩
            (by simpa using hm)
        refine ⟨st', ?_, hg', ?_⟩
        · rw [show flatMappedNext mapper (fuel + 1)
              { done := false, available := [[]], src := [] } =
              flatMappedNext mapper fuel
                { done := false, available := [], src := [] } from rfl]
          rw [heq]
          simp [fmRemainder]
        · rw [hr']
          simp [fmRemainder]
      | [], t :: ts =>
        have hm : (1 : Nat) + ts.length + 1 ≤ fuel := by
          simp only [List.length_cons, List.length_nil] at hf; omega
        obtain ⟨st', heq, hg', hr'⟩ :=
          ih { done := false, available := [mapper t], src := ts }
            ⟨rfl, Or.inl (by simp)⟩ (by simpa using hm)
        refine ⟨st', ?_, hg', ?_⟩
        · rw [show flatMappedNext mapper (fuel + 1)
              { done := false, available := [[]], src := t :: ts } =
              flatMappedNext mapper fuel
                { done := false, available := [mapper t], src := ts } from rfl]
          rw [heq]
          simp [fmRemainder]
        · rw [hr']
          simp [fmRemainder]
      | b :: bs, src =>
        have hm : (b :: bs).length + src.length + 1 ≤ fuel := by
          simp only [List.length_cons] at hf ⊢; omega
        obtain ⟨st', heq, hg', hr'⟩ :=
          ih { done := false, available := b :: bs, src := src }
            ⟨rfl, Or.inl (by simp)⟩ hm
        refine ⟨st', ?_, hg', ?_⟩
        · rw [show flatMappedNext mapper (fuel + 1)
              { done := false, available := [] :: b :: bs, src := src } =
              flatMappedNext mapper fuel
                { done := false, available := b :: bs, src := src } from rfl]
          rw [heq]
          simp [fmRemainder]
        · rw [hr']
          simp [fmRemainder]

/-- The fuel that always suffices for one sequential call to next on the
flat-mapping iterable. -/
def fmFuel {T : Type u} {R : Type v} (st : FlatMapState T R) : Nat :=
  st.available.length + st.src.length + 1

/-- Drain the flat-mapping iterable sequentially: call next up to n times,
collecting delivered values, stopping at the first empty result. -/
def fmDrain {T : Type u} {R : Type v} (mapper : T → List R) :
    Nat → FlatMapState T R → List R
  | 0, _ => []
  | n + 1, st =>
    let p := flatMappedNext mapper (fmFuel st) st
    match p.2 with
    | some v => v :: fmDrain mapper n p.1
    | none => []

theorem fmDrain_spec {T : Type u} {R : Type v} (mapper : T → List R) :
    ∀ (n : Nat) (st : FlatMapState T R), FMGood st →
      (fmRemainder mapper st).length < n →
      fmDrain mapper n st = fmRemainder mapper st := by
  intro n
  induction n with
  | zero => intro st hg hl; omega
  | succ n ih =>
    intro st hg hl
    obtain ⟨st', heq, hg', hr'⟩ :=
      flatMappedNext_spec mapper (fmFuel st) st hg (Nat.le.refl)
    simp only [fmDrain, heq]
    cases hrem : fmRemainder mapper st with
    | nil => simp [hrem]
    | cons v vs =>
      simp only [hrem, List.head?_cons]
      rw [ih st' hg' (by rw [hr', hrem]; rw [hrem] at hl; simp at hl ⊢; omega)]
      rw [hr', hrem]
      rfl

/-- C4: consumed sequentially, flatMappedAsyncIterable preserves upstream
order and nested depth-first order: draining it delivers exactly
src.flatMap mapper, every inner stream in its own order and strictly before
the next upstream element, with inner empty streams skipped; in particular
flat-mapping the two lists [1,2,3] and [4,5,6] with the identity mapper
yields 1,2,3,4,5,6 in that exact order, and interleaved empty inner streams
are skipped without gaps or errors. -/
theorem flatMapped_sequential_order {T : Type u} {R : Type v}
    (mapper : T → List R) (src : List T) :
    fmDrain mapper ((src.flatMap mapper).length + 1) (flatMappedInit src) =
        src.flatMap mapper ∧
      fmDrain (fun l => l) 7
          (flatMappedInit [[1, 2, 3], [4, 5, 6]]) = [1, 2, 3, 4, 5, 6] ∧
      fmDrain (fun l => l) 7
          (flatMappedInit [[1, 2, 3], [], [4, 5, 6], ([] : List Nat)]) =
        [1, 2, 3, 4, 5, 6] := by
  refine ⟨?_, by decide, by decide⟩
  have hg : FMGood (flatMappedInit (T := T) (R := R) src) := ⟨rfl, Or.inl (by simp [flatMappedInit])⟩
  have hrem : fmRemainder mapper (flatMappedInit (T := T) (R := R) src) =
      src.flatMap mapper := by
    simp [fmRemainder, flatMappedInit]
  rw [fmDrain_spec mapper ((src.flatMap mapper).length + 1) _ hg
    (by rw [hrem]; omega)]
  exact hrem

/-!
Model of transformingAsyncIterable (src/AsyncIterables.ts lines 197 to 237)
with the Transformer shape of src/Transformers.ts.  The TypeScript fold step
mutates the accumulator in place and returns a clearState flag and an
optional value; the pure model returns the updated accumulator alongside.
The ghost field finCount counts the invocations of the finisher and has no
influence on control flow. -/

/-- The Transformer descriptor of src/Transformers.ts lines 10 to 31.
supplier yields a fresh accumulator, transformer folds one element into the
accumulator and may emit a value together with a request to clear the state,
finisher flushes an optional last value at exhaustion. -/
structure Transformer (T : Type u) (A : Type v) (R : Type w) where
  supplier : A
  transformer : A → T → A × Bool × Option R
  finisher : A → Option R

/-- Transformers.batch (src/Transformers.ts lines 38 to 50): push each
element onto the accumulator, emit and clear once the batch size is
reached, and flush a non-empty trailing batch in the finisher. -/
def Transformers.batch {T : Type u} (size : Nat) :
    Transformer T (List T) (List T) where
  supplier := []
  transformer a t :=
    let a2 := a ++ [t]
    if size ≤ a2.length then (a2, true, some a2) else (a2, false, none)
  finisher a := if 0 < a.length then some a else none

/-- The closure state of transformingAsyncIterable over a list upstream:
the stop flag, the lazily created accumulator, the remaining upstream, and
the ghost count of finisher invocations. -/
structure TransformState (T : Type u) (A : Type v) where
  stop : Bool
  acc : Option A
  src : List T
  finCount : Nat
deriving DecidableEq

/-- The outcome of the while loop in next: the closure accumulator, the
remaining upstream, the stop flag, the number of finisher invocations made
by this call, and the value delivered. -/
structure TransformLoopResult (A : Type v) (T : Type u) (R : Type w) where
  acc : Option A
  src : List T
  stop : Bool
  fin : Nat
  out : Option R
deriving DecidableEq

/-- The while loop of next in transformingAsyncIterable: pull upstream
values and fold each into the accumulator; a present fold result is
delivered at once, clearing the accumulator when requested; on upstream
exhaustion set stop and let the finisher flush the accumulator. -/
def transformingLoop {T : Type u} {A : Type v} {R : Type w}
    (tf : Transformer T A R) (acc : A) :
    List T → TransformLoopResult A T R
  | [] =>
    -- the finisher is given the final chance to flush the accumulator
    { acc := some acc, src := [], stop := true, fin := 1,
      out := tf.finisher acc }
  | t :: rest =>
    let r := tf.transformer acc t
    match r.2.2 with
    | some v =>
      { acc := if r.2.1 then none else some r.1, src := rest, stop := false,
        fin := 0, out := some v }
    | none => transformingLoop tf r.1 rest

/-- next of transformingAsyncIterable: ensure the accumulator exists, then
when not stopped run the fold loop over the upstream. -/
def transformingNext {T : Type u} {A : Type v} {R : Type w}
    (tf : Transformer T A R) (st : TransformState T A) :
    TransformState T A × Option R :=
  let acc0 := st.acc.getD tf.supplier
  match st.stop with
  | true => ({ st with acc := some acc0 }, none)
  | false =>
    let r := transformingLoop tf acc0 st.src
    ({ stop := r.stop, acc := r.acc, src := r.src,
        finCount := st.finCount + r.fin }, r.out)

/-- transformingAsyncIterable as an AsyncIterable: stop sets the flag and
forwards to the upstream (a noop for a converted synchronous iterable). -/
def transformingAsyncIterable {T : Type u} {A : Type v} {R : Type w}
    (tf : Transformer T A R) : AsyncIterable (TransformState T A) R where
  next := transformingNext tf
  stop st := { st with stop := true }

/-- The initial transform state over a list upstream. -/
def transformingInit {T : Type u} {A : Type v} (src : List T) :
    TransformState T A :=
  { stop := false, acc := none, src := src, finCount := 0 }

/-- Drain the transforming iterable: call next up to n times, collecting
delivered values and stopping at the first empty result. -/
def transformingDrain {T : Type u} {A : Type v} {R : Type w}
    (tf : Transformer T A R) :
    Nat → TransformState T A → List R × TransformState T A
  | 0, st => ([], st)
  | n + 1, st =>
    let p := transformingNext tf st
    match p.2 with
    | some v =>
      let q := transformingDrain tf n p.1
      (v :: q.1, q.2)
    | none => ([], p.1)

theorem transformingLoop_chars {T : Type u} {A : Type v} {R : Type w}
    (tf : Transformer T A R) :
    ∀ (src : List T) (acc : A),
      ((transformingLoop tf acc src).stop = true ∧
          (transformingLoop tf acc src).fin = 1 ∧
          (transformingLoop tf acc src).src = []) ∨
        ((transformingLoop tf acc src).stop = false ∧
          (transformingLoop tf acc src).fin = 0 ∧
          (transformingLoop tf acc src).out.isSome ∧
          (transformingLoop tf acc src).src.length < src.length) := by
  intro src
  induction src with
  | nil => intro acc; exact Or.inl ⟨rfl, rfl, rfl⟩
  | cons t rest ih =>
    intro acc
    simp only [transformingLoop]
    cases hv : (tf.transformer acc t).2.2 with
    | some v => exact Or.inr ⟨rfl, rfl, rfl, by simp⟩
    | none =>
      rcases ih (tf.transformer acc t).1 with h | h
      · exact Or.inl h
      · exact Or.inr ⟨h.1, h.2.1, h.2.2.1, by
          have := h.2.2.2
          simp only [List.length_cons]
          omega⟩

theorem transforming_stopped_run {T : Type u} {A : Type v} {R : Type w}
    (tf : Transformer T A R) (m : Nat) (st : TransformState T A)
    (h : st.stop = true) :
    (seqRun (transformingAsyncIterable tf) m st).1 = List.replicate m none ∧
      (seqRun (transformingAsyncIterable tf) m st).2.finCount = st.finCount ∧
      (seqRun (transformingAsyncIterable tf) m st).2.stop = true := by
  induction m generalizing st with
  | zero => exact ⟨rfl, rfl, h⟩
  | succ m ih =>
    have hn : (transformingAsyncIterable tf).next st =
        ({ st with acc := some (st.acc.getD tf.supplier) }, none) := by
      simp [transformingAsyncIterable, transformingNext, h]
    simp only [seqRun, hn]
    obtain ⟨ha, hb, hc⟩ := ih { st with acc := some (st.acc.getD tf.supplier) } h
    exact ⟨by rw [ha]; rfl, hb, hc⟩

theorem transformingDrain_stopped {T : Type u} {A : Type v} {R : Type w}
    (tf : Transformer T A R) (n : Nat) (st : TransformState T A)
    (h : st.stop = true) :
    (transformingDrain tf n st).2.finCount = st.finCount ∧
      (transformingDrain tf n st).2.stop = true := by
  cases n with
  | zero => exact ⟨rfl, h⟩
  | succ n => simp [transformingDrain, transformingNext, h]

theorem transformingDrain_finisher {T : Type u} {A : Type v} {R : Type w}
    (tf : Transformer T A R) :
    ∀ (n : Nat) (st : TransformState T A), st.stop = false →
      st.src.length + 2 ≤ n →
      (transformingDrain tf n st).2.finCount = st.finCount + 1 ∧
        (transformingDrain tf n st).2.stop = true := by
  intro n
  induction n with
  | zero => intro st h1 h2; omega
  | succ n ih =>
    intro st h1 h2
    obtain ⟨sstop, sacc, ssrc, sfin⟩ := st
    simp only at h1 h2
    subst h1
    simp only [transformingDrain, transformingNext]
    have hch := transformingLoop_chars tf ssrc (Option.getD sacc tf.supplier)
    generalize hr : transformingLoop tf (Option.getD sacc tf.supplier) ssrc = r at hch ⊢
    rcases hch with ⟨hs, hf, he⟩ | ⟨hs, hf, hsome, hlen⟩
    · cases ho : r.out with
      | none =>
        simp only [ho]
        exact ⟨by simp [hf], by simp [hs]⟩
      | some v =>
        simp only [ho]
        have hst := transformingDrain_stopped tf n
          { stop := r.stop, acc := r.acc, src := r.src,
            finCount := sfin + r.fin } (by simp [hs])
        refine ⟨?_, hst.2⟩
        rw [hst.1]
        simp [hf]
    · cases ho : r.out with
      | none => rw [ho] at hsome; exact absurd hsome (by simp)
      | some v =>
        simp only [ho]
        have hrec := ih
          { stop := r.stop, acc := r.acc, src := r.src,
            finCount := sfin + r.fin } (by simp [hs]) (by simp; omega)
        refine ⟨?_, hrec.2⟩
        rw [hrec.1]
        simp [hf]

/-- C5: once the upstream of transformingAsyncIterable is exhausted the
finisher is invoked exactly once (the ghost finCount of a full drain is one)
and every subsequent next() call returns absent with no further finisher
invocation; in particular the batch(2) transformer yields [[a,b],[c,d]] over
a,b,c,d, yields [[a,b],[c,d],[e]] over a,b,c,d,e (trailing partial batch
flushed by the finisher), and yields [] over an empty source. -/
theorem transformingAsyncIterable_finisher_once {T : Type u} {A : Type v}
    {R : Type w} (tf : Transformer T A R) (src : List T) (m : Nat) :
    (transformingDrain tf (src.length + 2) (transformingInit src)).2.finCount
        = 1 ∧
      (seqRun (transformingAsyncIterable tf) m
          (transformingDrain tf (src.length + 2) (transformingInit src)).2).1
        = List.replicate m none ∧
      (seqRun (transformingAsyncIterable tf) m
          (transformingDrain tf (src.length + 2) (transformingInit src)).2).2.finCount
        = 1 ∧
      (transformingDrain (Transformers.batch 2) 6
          (transformingInit ["a", "b", "c", "d"])).1 =
        [["a", "b"], ["c", "d"]] ∧
      (transformingDrain (Transformers.batch 2) 7
          (transformingInit ["a", "b", "c", "d", "e"])).1 =
        [["a", "b"], ["c", "d"], ["e"]] ∧
      (transformingDrain (Transformers.batch 2) 2
          (transformingInit ([] : List String))).1 = [] := by
  have hfin := transformingDrain_finisher tf (src.length + 2)
    (transformingInit src) rfl (by simp [transformingInit])
  have hrun := transforming_stopped_run tf m
    (transformingDrain tf (src.length + 2) (transformingInit src)).2 hfin.2
  refine ⟨?_, hrun.1, ?_, by decide, by decide, by decide⟩
  · simpa [transformingInit] using hfin.1
  · rw [hrun.2.1]
    simpa [transformingInit] using hfin.1


/-!
Model of bufferingIterable (src/AsyncIterables.ts lines 283 to 354).

The engine keeps a map pending of in-flight upstream fetches keyed by a
sequence index, a list ready of resolved undelivered results, and a stop
flag.  Each fetch is an upstream next() call; its promise is chained with a
one-argument then that removes the map entry and pushes the resolved value
onto ready.  Modelling decisions, matching the single threaded cooperative
scheduler:

* The value of a fetch is fixed at issue time: the upstream is a converted
  synchronous source (or a rejecting variant of one), whose next() computes
  its result synchronously at the call; only the delivery of that result to
  the then callback happens later.  A fetch is therefore an element of
  Except Unit (Option T): ok of a value or exhaustion, or error for a
  fetch whose promise rejects.
* Resolution (running the then callback) happens at the suspension points
  of the engine, in issue order (promises of such a source settle in call
  order and their callbacks run in attachment order).  The scheduler is
  otherwise adversarial: an oracle says how many pending fetches resolve at
  each suspension point.
* A fetch that rejects never runs its then callback: its entry is never
  removed from the pending map and its value never reaches ready.  The
  model moves it from the pending queue into the counter dead; the map size
  of the source is the queue length plus dead.
* The JS array ready is pushed and popped at its tail; the model keeps the
  newest element at the head of the list.
* The ghost fields delivered and issued record the values handed downstream
  and the number of upstream next() calls; they influence nothing.
-/

/-- The closure state of bufferingIterable over a finite upstream whose
pulls are listed in src (ok value, or error for a pull whose promise
rejects; past the end of src the upstream reports exhaustion forever). -/
structure BufCfg (T : Type v) where
  stop : Bool
  pending : List (Except Unit (Option T))
  dead : Nat
  ready : List (Option T)
  src : List (Except Unit T)
  delivered : List T
  issued : Nat

/-- The size of the pending map: unresolved fetches plus rejected fetches
whose entries were never deleted. -/
def pendingSize {T : Type v} (c : BufCfg T) : Nat :=
  c.pending.length + c.dead

/-- One upstream pull: the next entry of src, or exhaustion. -/
def pullSrc {T : Type v} :
    List (Except Unit T) → List (Except Unit T) × Except Unit (Option T)
  | [] => ([], .ok none)
  | .ok t :: rest => (rest, .ok (some t))
  | .error e :: rest => (rest, .error e)

/-- Issue one fetch: call upstream next() and append the in-flight promise
to the pending map under the next sequence index. -/
def issueOne {T : Type v} (c : BufCfg T) : BufCfg T :=
  let p := pullSrc c.src
  { c with src := p.1, pending := c.pending ++ [p.2], issued := c.issued + 1 }

/-- The while loop of queueMore (src/AsyncIterables.ts lines 293 to 304):
while not stopped and the pending map is below the buffer size, issue
another fetch.  Each iteration grows the map by one, so fuel = size always
suffices. -/
def queueMoreIssue {T : Type v} (size : Nat) : Nat → BufCfg T → BufCfg T
  | 0, c => c
  | fuel + 1, c =>
    if c.stop = false ∧ pendingSize c < size then
      queueMoreIssue size fuel (issueOne c)
    else c

/-- Resolve the oldest unresolved fetch: an ok fetch runs its then callback
(delete from the map, push onto ready); a rejected fetch runs no callback
and its map entry becomes permanently dead. -/
def resolveOne {T : Type v} (c : BufCfg T) : BufCfg T :=
  match c.pending with
  | [] => c
  | .ok v :: rest => { c with pending := rest, ready := v :: c.ready }
  | .error _ :: rest => { c with pending := rest, dead := c.dead + 1 }

/-- Resolve the k oldest unresolved fetches. -/
def resolveN {T : Type v} : Nat → BufCfg T → BufCfg T
  | 0, c => c
  | k + 1, c => resolveN k (resolveOne c)

/-- Consume the next entry of the scheduler oracle (0 when exhausted). -/
def takeOracle : List Nat → Nat × List Nat
  | [] => (0, [])
  | k :: o => (k, o)

/-- queueMore (src/AsyncIterables.ts lines 292 to 308): the issue loop, then
the micro sleep, a suspension point at which the scheduler may resolve some
pending fetches. -/
def queueMore {T : Type v} (size : Nat) (co : BufCfg T × List Nat) :
    BufCfg T × List Nat :=
  let c1 := queueMoreIssue size size co.1
  let p := takeOracle co.2
  (resolveN p.1 c1, p.2)

/-- nextReadyOne (src/AsyncIterables.ts lines 310 to 326): while ready is
not empty, pop the most recently resolved result, await its presence (a
suspension point), run queueMore, and either return the present value or
record the stop and keep draining.  Returns none when the fuel of the model
runs out; some with an empty result means no ready value was available. -/
def nextReadyOne {T : Type v} (size : Nat) :
    Nat → BufCfg T × List Nat → Option ((BufCfg T × List Nat) × Option T)
  | 0, _ => none
  | fuel + 1, co =>
    match co.1.ready with
    | [] => some (co, none)
    | buffered :: readyRest =>
      let c1 := { co.1 with ready := readyRest }
      let p := takeOracle co.2
      let c2 := resolveN p.1 c1
      let co3 := queueMore size (c2, p.2)
      match buffered with
      | some v =>
        some (({ co3.1 with delivered := co3.1.delivered ++ [v] }, co3.2),
          some v)
      | none => nextReadyOne size fuel ({ co3.1 with stop := true }, co3.2)

/-- The while loop of next (src/AsyncIterables.ts lines 334 to 345): while
not stopped or ready is non-empty, try nextReadyOne, then queueMore, then
the race over the pending map keys; the race resolves immediately (the keys
are numbers, not promises) and is one more suspension point when the map is
non-empty. -/
def bufferingNextLoop {T : Type v} (size : Nat) :
    Nat → BufCfg T × List Nat → Option ((BufCfg T × List Nat) × Option T)
  | 0, _ => none
  | fuel + 1, co =>
    if co.1.stop = false ∨ co.1.ready.isEmpty = false then
      match nextReadyOne size (fuel + 1) co with
      | none => none
      | some (co1, some v) => some (co1, some v)
      | some (co1, none) =>
        let co2 := queueMore size co1
        let co3 :=
          if 0 < pendingSize co2.1 then
            let p := takeOracle co2.2
            (resolveN p.1 co2.1, p.2)
          else co2
        bufferingNextLoop size fuel co3
    else some (co, none)

/-- next of bufferingIterable (src/AsyncIterables.ts lines 329 to 348). -/
def bufferingNext {T : Type v} (size : Nat) (fuel : Nat)
    (co : BufCfg T × List Nat) :
    Option ((BufCfg T × List Nat) × Option T) :=
  if co.1.stop = true ∧ co.1.ready.isEmpty = true then some (co, none)
  else bufferingNextLoop size fuel co

/-- stop of bufferingIterable (src/AsyncIterables.ts lines 349 to 352): set
the flag and forward to the upstream (a noop for a converted synchronous
source). -/
def bufferingStop {T : Type v} (c : BufCfg T) : BufCfg T :=
  { c with stop := true }

/-- A fresh buffering engine over the given upstream pulls. -/
def bufferingInit {T : Type v} (src : List (Except Unit T)) : BufCfg T :=
  { stop := false, pending := [], dead := 0, ready := [], src := src,
    delivered := [], issued := 0 }

/-- Drain the buffering iterable: call next until it reports absent,
returning the delivered values and the final configuration, or none when
the fuel of the model runs out. -/
def drainBuffering {T : Type v} (size : Nat) :
    Nat → BufCfg T × List Nat → Option (List T × BufCfg T)
  | 0, _ => none
  | n + 1, co =>
    match bufferingNext size (n + 1) co with
    | none => none
    | some (co1, some _) => drainBuffering size n co1
    | some (co1, none) => some (co1.1.delivered, co1.1)


/-- The present values held in a ready list, oldest last. -/
def readyVals {T : Type v} : List (Option T) → List T
  | [] => []
  | some v :: r => v :: readyVals r
  | none :: r => readyVals r

/-- The inductive invariant of the buffering engine over an error-free
upstream.  ps are the values of the in-flight present fetches (oldest
first), ns counts the in-flight exhaustion fetches, ys the values the
upstream can still produce.  Fetches are issued in upstream order, so the
exhaustion fetches always sit behind the present ones; an exhaustion fetch
exists only once the upstream is spent; and once the engine observed
exhaustion (stop set, or an absent result resolved into ready), every value
of the upstream has already been fetched and resolved.  The multiset M is
the conserved content: values delivered plus values in ready plus values in
flight plus values still in the upstream. -/
def BufInv {T : Type v} (M : Multiset T) (c : BufCfg T) : Prop :=
  ∃ ps ns ys,
    c.pending = ps.map (fun v => Except.ok (some v)) ++
        List.replicate ns (Except.ok none) ∧
    c.src = ys.map Except.ok ∧
    (0 < ns → ys = []) ∧
    ((c.stop = true ∨ none ∈ c.ready) → ys = [] ∧ ps = []) ∧
    ((c.delivered : Multiset T) + ↑(readyVals c.ready) + ↑ps + ↑ys = M) ∧
    c.dead = 0

/-- Pending entries past upstream exhaustion: every in-flight fetch is an
exhaustion fetch and the upstream is spent. -/
def NoMoreVals {T : Type v} (c : BufCfg T) : Prop :=
  (∀ e ∈ c.pending, e = Except.ok (none : Option T)) ∧ c.src = []

theorem issueOne_inv {T : Type v} {M : Multiset T} {c : BufCfg T}
    (h : BufInv M c) (hstop : c.stop = false) : BufInv M (issueOne c) := by
  obtain ⟨ps, ns, ys, hp, hs, h3, h4, h5, h6⟩ := h
  obtain ⟨st, pe, de, re, sr, dl, isd⟩ := c
  simp only at hp hs h3 h4 h5 h6 hstop
  subst hp hs h6 hstop
  cases ys with
  | nil =>
    refine ⟨ps, ns + 1, [], ?_, by simp [issueOne, pullSrc], fun _ => rfl,
      ?_, ?_, rfl⟩
    · simp only [issueOne, List.map_nil, pullSrc]
      rw [List.replicate_succ' (ns) (Except.ok (none : Option T))]
      simp [List.append_assoc]
    · intro hpre
      simp only [issueOne, List.map_nil, pullSrc] at hpre
      exact ⟨rfl, (h4 hpre).2⟩
    · simpa [issueOne, pullSrc] using h5
  | cons y yr =>
    have hns : ns = 0 := by
      by_contra hcon
      exact List.noConfusion (h3 (by omega))
    subst hns
    refine ⟨ps ++ [y], 0, yr, ?_, by simp [issueOne, pullSrc],
      fun hcon => absurd hcon (by omega), ?_, ?_, rfl⟩
    · simp [issueOne, pullSrc, List.map_append]
    · intro hpre
      simp only [issueOne, List.map_cons, pullSrc] at hpre
      exact absurd (h4 hpre).1 (by simp)
    · simp only [issueOne, List.map_cons, pullSrc]
      have hcoe1 : ((ps ++ [y] : List T) : Multiset T) =
          ↑ps + ↑([y] : List T) := (Multiset.coe_add ps [y]).symm
      have hcoe2 : ((y :: yr : List T) : Multiset T) =
          ↑([y] : List T) + ↑yr := (Multiset.coe_add [y] yr).symm
      rw [hcoe2] at h5
      rw [hcoe1, ← h5]
      abel

theorem queueMoreIssue_inv {T : Type v} {M : Multiset T} (size : Nat) :
    ∀ (fuel : Nat) (c : BufCfg T), BufInv M c →
      BufInv M (queueMoreIssue size fuel c) := by
  intro fuel
  induction fuel with
  | zero => intro c h; exact h
  | succ fuel ih =>
    intro c h
    simp only [queueMoreIssue]
    split
    · rename_i hc
      exact ih _ (issueOne_inv h hc.1)
    · exact h

theorem resolveOne_inv {T : Type v} {M : Multiset T} {c : BufCfg T}
    (h : BufInv M c) : BufInv M (resolveOne c) := by
  obtain ⟨ps, ns, ys, hp, hs, h3, h4, h5, h6⟩ := h
  obtain ⟨st, pe, de, re, sr, dl, isd⟩ := c
  simp only at hp hs h3 h4 h5 h6
  subst hp hs h6
  cases ps with
  | cons v ps1 =>
    refine ⟨ps1, ns, ys, by simp [resolveOne], by simp [resolveOne], h3,
      ?_, ?_, rfl⟩
    · intro hpre
      exfalso
      simp only [resolveOne, List.map_cons, List.cons_append] at hpre
      have hpre0 : st = true ∨ none ∈ re := by
        rcases hpre with hst | hin
        · exact Or.inl hst
        · rcases List.mem_cons.mp hin with hE | hE
          · exact absurd hE (by simp)
          · exact Or.inr hE
      exact absurd (h4 hpre0).2 (by simp)
    · simp only [resolveOne, List.map_cons, List.cons_append, readyVals]
      have hcoe1 : ((v :: readyVals re : List T) : Multiset T) =
          ↑([v] : List T) + ↑(readyVals re) := (Multiset.coe_add [v] _).symm
      have hcoe2 : ((v :: ps1 : List T) : Multiset T) =
          ↑([v] : List T) + ↑ps1 := (Multiset.coe_add [v] ps1).symm
      rw [hcoe2] at h5
      rw [hcoe1, ← h5]
      abel
  | nil =>
    cases ns with
    | zero =>
      exact ⟨[], 0, ys, by simp [resolveOne], by simp [resolveOne], h3,
        by simpa [resolveOne] using h4, by simpa [resolveOne] using h5, rfl⟩
    | succ m =>
      have hys : ys = [] := h3 (by omega)
      subst hys
      refine ⟨[], m, [], ?_, by simp [resolveOne, List.replicate_succ],
        fun _ => rfl, fun _ => ⟨rfl, rfl⟩, ?_, rfl⟩
      · simp [resolveOne, List.replicate_succ]
      · simp only [resolveOne, List.map_nil, List.nil_append,
          List.replicate_succ, readyVals]
        simpa [readyVals] using h5

theorem resolveN_inv {T : Type v} {M : Multiset T} :
    ∀ (k : Nat) (c : BufCfg T), BufInv M c → BufInv M (resolveN k c) := by
  intro k
  induction k with
  | zero => intro c h; exact h
  | succ k ih => intro c h; exact ih _ (resolveOne_inv h)

theorem queueMore_inv {T : Type v} {M : Multiset T} (size : Nat)
    (co : BufCfg T × List Nat) (h : BufInv M co.1) :
    BufInv M (queueMore size co).1 := by
  simp only [queueMore]
  exact resolveN_inv _ _ (queueMoreIssue_inv size size co.1 h)

theorem noMore_issueOne {T : Type v} {c : BufCfg T} (h : NoMoreVals c) :
    NoMoreVals (issueOne c) := by
  obtain ⟨h1, h2⟩ := h
  constructor
  · intro e he
    simp only [issueOne, h2, pullSrc, List.mem_append, List.mem_singleton] at he
    rcases he with he | he
    · exact h1 e he
    · exact he
  · simp [issueOne, h2, pullSrc]

theorem noMore_queueMoreIssue {T : Type v} (size : Nat) :
    ∀ (fuel : Nat) (c : BufCfg T), NoMoreVals c →
      NoMoreVals (queueMoreIssue size fuel c) := by
  intro fuel
  induction fuel with
  | zero => intro c h; exact h
  | succ fuel ih =>
    intro c h
    simp only [queueMoreIssue]
    split
    · exact ih _ (noMore_issueOne h)
    · exact h

theorem noMore_resolveOne {T : Type v} {c : BufCfg T} (h : NoMoreVals c) :
    NoMoreVals (resolveOne c) := by
  obtain ⟨h1, h2⟩ := h
  cases hpe : c.pending with
  | nil => simpa [resolveOne, hpe] using ⟨fun e he => h1 e (hpe ▸ he), h2⟩
  | cons f rest =>
    have hf : f = Except.ok none := h1 f (hpe ▸ List.mem_cons_self f rest)
    subst hf
    refine ⟨?_, ?_⟩
    · intro e he
      simp only [resolveOne, hpe] at he
      exact h1 e (hpe ▸ List.mem_cons_of_mem _ he)
    · simpa [resolveOne, hpe] using h2

theorem noMore_resolveN {T : Type v} :
    ∀ (k : Nat) (c : BufCfg T), NoMoreVals c → NoMoreVals (resolveN k c) := by
  intro k
  induction k with
  | zero => intro c h; exact h
  | succ k ih => intro c h; exact ih _ (noMore_resolveOne h)

theorem noMore_queueMore {T : Type v} (size : Nat) (co : BufCfg T × List Nat)
    (h : NoMoreVals co.1) : NoMoreVals (queueMore size co).1 := by
  simp only [queueMore]
  exact noMore_resolveN _ _ (noMore_queueMoreIssue size size co.1 h)

theorem stopSet_inv {T : Type v} {M : Multiset T} {c : BufCfg T}
    (h : BufInv M c) (hn : NoMoreVals c) : BufInv M { c with stop := true } := by
  obtain ⟨ps, ns, ys, hp, hs, h3, h4, h5, h6⟩ := h
  have hps : ps = [] := by
    cases ps with
    | nil => rfl
    | cons v ps1 =>
      exfalso
      have : Except.ok (some v) = Except.ok (none : Option T) :=
        hn.1 _ (by simp [hp])
      simp at this
  have hys : ys = [] := by
    have := hn.2
    rw [hs] at this
    simpa using this
  subst hps hys
  exact ⟨[], ns, [], hp, hs, fun _ => rfl, fun _ => ⟨rfl, rfl⟩, h5, h6⟩

theorem buf_deliver_mass {T : Type v} {M : Multiset T}
    (dl rv ps ys dl3 rv3 ps3 ys3 : List T) (v : T)
    (h53 : (dl3 : Multiset T) + (rv3 : Multiset T) + (ps3 : Multiset T) +
        (ys3 : Multiset T) =
      (dl : Multiset T) + (rv : Multiset T) + (ps : Multiset T) +
        (ys : Multiset T))
    (h5 : (dl : Multiset T) + ((v :: rv : List T) : Multiset T) +
        (ps : Multiset T) + (ys : Multiset T) = M) :
    ((dl3 ++ [v] : List T) : Multiset T) + (rv3 : Multiset T) +
        (ps3 : Multiset T) + (ys3 : Multiset T) = M := by
  rw [← h5]
  rw [← Multiset.coe_add]
  rw [show ((v :: rv : List T) : Multiset T) = ↑([v] : List T) + ↑rv from
    (Multiset.coe_add [v] rv).symm]
  calc ((dl3 : Multiset T) + ↑([v] : List T)) + ↑rv3 + ↑ps3 + ↑ys3
      = ↑([v] : List T) + ((dl3 : Multiset T) + ↑rv3 + ↑ps3 + ↑ys3) := by abel
    _ = ↑([v] : List T) + ((dl : Multiset T) + ↑rv + ↑ps + ↑ys) := by rw [h53]
    _ = (dl : Multiset T) + (↑([v] : List T) + ↑rv) + ↑ps + ↑ys := by abel

theorem nextReadyOne_inv {T : Type v} (size : Nat) :
    ∀ (fuel : Nat) (co : BufCfg T × List Nat) (M : Multiset T),
      BufInv M co.1 →
      ∀ (co' : BufCfg T × List Nat) (r : Option T),
        nextReadyOne size fuel co = some (co', r) → BufInv M co'.1 := by
  intro fuel
  induction fuel with
  | zero => intro co M h co' r heq; exact absurd heq (by simp [nextReadyOne])
  | succ fuel ih =>
    intro co M h co' r heq
    rcases hre : co.1.ready with _ | ⟨buffered, rest⟩
    · simp only [nextReadyOne, hre] at heq
      obtain ⟨rfl, rfl⟩ := Prod.mk.injEq .. ▸ (Option.some.injEq _ _).mp heq
      exact h
    · obtain ⟨ps, ns, ys, hp, hs, h3, h4, h5, h6⟩ := h
      cases buffered with
      | some v =>
        -- the popped value is held in hand while the engine refills
        have hc1 : BufInv ((co.1.delivered : Multiset T) +
            (readyVals rest : Multiset T) + (ps : Multiset T) + (ys : Multiset T))
            { co.1 with ready := rest } := by
          refine ⟨ps, ns, ys, hp, hs, h3, ?_, rfl, h6⟩
          intro hpre
          refine h4 ?_
          rcases hpre with hst | hin
          · exact Or.inl hst
          · exact Or.inr (by rw [hre]; exact List.mem_cons_of_mem _ hin)
        have hinv3 : BufInv ((co.1.delivered : Multiset T) +
            (readyVals rest : Multiset T) + (ps : Multiset T) + (ys : Multiset T))
            (queueMore size
              (resolveN (takeOracle co.2).1 { co.1 with ready := rest },
                (takeOracle co.2).2)).1 :=
          queueMore_inv size
            (resolveN (takeOracle co.2).1 { co.1 with ready := rest },
              (takeOracle co.2).2)
            (resolveN_inv (takeOracle co.2).1 _ hc1)
        simp only [nextReadyOne, hre] at heq
        obtain ⟨rfl, rfl⟩ := Prod.mk.injEq .. ▸ (Option.some.injEq _ _).mp heq
        obtain ⟨ps3, ns3, ys3, hp3, hs3, h33, h43, h53, h63⟩ := hinv3
        refine ⟨ps3, ns3, ys3, hp3, hs3, h33, h43, ?_, h63⟩
        rw [hre] at h5
        simp only [readyVals] at h5
        exact buf_deliver_mass _ _ _ _ _ _ _ _ v h53 h5
      | none =>
        have hbar : ys = [] ∧ ps = [] :=
          h4 (Or.inr (by rw [hre]; exact List.mem_cons_self _ _))
        obtain ⟨hys, hps⟩ := hbar
        subst hys hps
        have hc1 : BufInv M { co.1 with ready := rest } := by
          refine ⟨[], ns, [], hp, hs, fun _ => rfl, fun _ => ⟨rfl, rfl⟩, ?_, h6⟩
          rw [← h5, hre]
          simp [readyVals]
        have hn1 : NoMoreVals { co.1 with ready := rest } := by
          constructor
          · intro e he
            simp only [hp] at he
            simp only [List.map_nil, List.nil_append] at he
            exact List.eq_of_mem_replicate he
          · simpa using hs
        simp only [nextReadyOne, hre] at heq
        refine ih _ M ?_ co' r heq
        have hinv3 : BufInv M (queueMore size
            (resolveN (takeOracle co.2).1 { co.1 with ready := rest },
              (takeOracle co.2).2)).1 :=
          queueMore_inv size
            (resolveN (takeOracle co.2).1 { co.1 with ready := rest },
              (takeOracle co.2).2)
            (resolveN_inv (takeOracle co.2).1 _ hc1)
        have hn3 : NoMoreVals (queueMore size
            (resolveN (takeOracle co.2).1 { co.1 with ready := rest },
              (takeOracle co.2).2)).1 :=
          noMore_queueMore size _
            (noMore_resolveN (takeOracle co.2).1 _ hn1)
        exact stopSet_inv hinv3 hn3

theorem bufferingNextLoop_spec {T : Type v} (size : Nat) :
    ∀ (fuel : Nat) (co : BufCfg T × List Nat) (M : Multiset T),
      BufInv M co.1 →
      ∀ (co' : BufCfg T × List Nat) (r : Option T),
        bufferingNextLoop size fuel co = some (co', r) →
        BufInv M co'.1 ∧
          (r = none → co'.1.stop = true ∧ co'.1.ready = []) := by
  intro fuel
  induction fuel with
  | zero =>
    intro co M h co' r heq
    exact absurd heq (by simp [bufferingNextLoop])
  | succ fuel ih =>
    intro co M h co' r heq
    simp only [bufferingNextLoop] at heq
    split at heq
    · rcases hnro : nextReadyOne size (fuel + 1) co with _ | ⟨co1, r1⟩
      · rw [hnro] at heq
        exact absurd heq (by simp)
      · rw [hnro] at heq
        have hinv1 := nextReadyOne_inv size (fuel + 1) co M h co1 r1 hnro
        cases r1 with
        | some v =>
          simp only at heq
          obtain ⟨rfl, rfl⟩ := Prod.mk.injEq .. ▸ (Option.some.injEq _ _).mp heq
          exact ⟨hinv1, by intro hcon; exact absurd hcon (by simp)⟩
        | none =>
          simp only at heq
          refine ih _ M ?_ co' r heq
          have hinv2 := queueMore_inv size co1 hinv1
          split
          · exact resolveN_inv _ _ hinv2
          · exact hinv2
    · rename_i hcond
      obtain ⟨rfl, rfl⟩ := Prod.mk.injEq .. ▸ (Option.some.injEq _ _).mp heq
      push_neg at hcond
      refine ⟨h, fun _ => ⟨?_, ?_⟩⟩
      · cases hst : co.1.stop with
        | true => rfl
        | false => exact absurd hst hcond.1
      · have := hcond.2
        cases hready : co.1.ready with
        | nil => rfl
        | cons a l =>
          exfalso
          rw [hready] at this
          simp [List.isEmpty] at this

theorem bufferingNext_spec {T : Type v} (size : Nat) (fuel : Nat)
    (co : BufCfg T × List Nat) (M : Multiset T) (h : BufInv M co.1)
    (co' : BufCfg T × List Nat) (r : Option T)
    (heq : bufferingNext size fuel co = some (co', r)) :
    BufInv M co'.1 ∧ (r = none → co'.1.stop = true ∧ co'.1.ready = []) := by
  simp only [bufferingNext] at heq
  split at heq
  · rename_i hcond
    obtain ⟨rfl, rfl⟩ := Prod.mk.injEq .. ▸ (Option.some.injEq _ _).mp heq
    refine ⟨h, fun _ => ⟨hcond.1, ?_⟩⟩
    have := hcond.2
    cases hready : co.1.ready with
    | nil => rfl
    | cons a l =>
      exfalso
      rw [hready] at this
      simp [List.isEmpty] at this
  · exact bufferingNextLoop_spec size fuel co M h co' r heq

theorem drainBuffering_mass {T : Type v} (size : Nat) :
    ∀ (n : Nat) (co : BufCfg T × List Nat) (M : Multiset T),
      BufInv M co.1 →
      ∀ (out : List T) (cfg : BufCfg T),
        drainBuffering size n co = some (out, cfg) →
        (out : Multiset T) = M := by
  intro n
  induction n with
  | zero =>
    intro co M h out cfg heq
    exact absurd heq (by simp [drainBuffering])
  | succ n ih =>
    intro co M h out cfg heq
    simp only [drainBuffering] at heq
    rcases hnx : bufferingNext size (n + 1) co with _ | ⟨co1, r1⟩
    · rw [hnx] at heq
      exact absurd heq (by simp)
    · rw [hnx] at heq
      have hspec := bufferingNext_spec size (n + 1) co M h co1 r1 hnx
      cases r1 with
      | some v =>
        simp only at heq
        exact ih co1 M hspec.1 out cfg heq
      | none =>
        simp only at heq
        obtain ⟨rfl, rfl⟩ := Prod.mk.injEq .. ▸ (Option.some.injEq _ _).mp heq
        obtain ⟨ps, ns, ys, hp, hs, h3, h4, h5, h6⟩ := hspec.1
        obtain ⟨hys, hps⟩ := h4 (Or.inl (hspec.2 rfl).1)
        subst hys hps
        rw [(hspec.2 rfl).2] at h5
        simpa [readyVals] using h5

/-- C1: for every finite error-free upstream source and every buffer size,
whenever fully draining bufferingIterable completes (under any scheduler
oracle and any fuel of the model), the delivered values are exactly a
permutation of the source values: the same multiset, with no duplicates, no
insertions and no losses.  In particular the already-resolved present values
observed after exhaustion are all still delivered before absent is reported
downstream, since losing any of them would break the permutation. -/
theorem bufferingIterable_drain_exact {T : Type v} (xs : List T)
    (size n : Nat) (oracle : List Nat) (out : List T) (hsize : 1 ≤ size)
    (h : (drainBuffering size n
        (bufferingInit (xs.map Except.ok), oracle)).map Prod.fst = some out) :
    out.Perm xs := by
  have hinit : BufInv (xs : Multiset T) (bufferingInit (xs.map Except.ok)) := by
    refine ⟨[], 0, xs, by simp [bufferingInit], rfl, ?_, ?_, ?_, rfl⟩
    · intro hcon; omega
    · intro hpre
      rcases hpre with hst | hin
      · exact absurd hst (by simp [bufferingInit])
      · exact absurd hin (by simp [bufferingInit])
    · simp [bufferingInit, readyVals]
  rcases hd : drainBuffering size n (bufferingInit (xs.map Except.ok), oracle)
      with _ | ⟨o, cfg⟩
  · rw [hd] at h
    exact absurd h (by simp)
  · rw [hd] at h
    have hmass := drainBuffering_mass size n _ (xs : Multiset T) hinit o cfg hd
    have hout : o = out := by simpa using h
    subst hout
    exact Multiset.coe_eq_coe.mp hmass

/-- Witness for C1 at a concrete run: source 1,2,3,4, buffer size 2, a
scheduler that resolves eagerly; the drain completes delivering 2,4,3,1, a
permutation of the source. -/
theorem bufferingIterable_drain_exact_witness :
    (1 ≤ 2) ∧ ([2, 4, 3, 1] : List Nat).Perm [1, 2, 3, 4] :=
  ⟨by omega, bufferingIterable_drain_exact [1, 2, 3, 4] 2 30
    (List.replicate 30 10) [2, 4, 3, 1] (by omega) (by rfl)⟩

/-- AsyncStream.findFirst without a predicate (src/Collectors.ts lines 283
to 301, the AsyncStream class) applied to a stream whose iterable is a
buffering engine: pull exactly one value with a single next() call on the
iterable, then immediately call stop() on it. -/
def findFirstBuffered {T : Type v} (xs : List T) (size fuel : Nat)
    (oracle : List Nat) : Option (Option T × BufCfg T) :=
  match bufferingNext size fuel (bufferingInit (xs.map Except.ok), oracle) with
  | none => none
  | some (co1, r) => some (r, bufferingStop co1.1)

/-- C7: findFirst() on a stream of 8 elements piped through a buffer of
size 3 delivers exactly one value by a single pull on the buffering
iterable and then stops it, and only 6 of the 8 source elements were ever
produced upstream (the ghost field issued counts the upstream next()
calls): the short-circuiting consumer halts upstream work after fewer than
8 elements. -/
theorem findFirst_buffered_short_circuit :
    (findFirstBuffered ([1, 2, 3, 4, 5, 6, 7, 8] : List Nat) 3 20
        (List.replicate 20 10)).map
        (fun p => (p.1, p.2.issued, p.2.stop, p.2.delivered)) =
      some (some 3, 6, true, [3]) ∧ 6 < 8 := by
  exact ⟨by rfl, by omega⟩

/-- A buffering engine wedged by rejected fetches: not stopped, nothing
ready, upstream spent, every in-flight map entry the child of a rejected
promise, and the map full up to the buffer size.  The then callback of a
rejected fetch never runs, so no entry is ever deleted and nothing is ever
pushed onto ready. -/
def BufStuck {T : Type v} (size : Nat) (c : BufCfg T) : Prop :=
  c.stop = false ∧ c.ready = [] ∧ c.src = [] ∧
    (∀ e ∈ c.pending, e = Except.error ()) ∧ size ≤ pendingSize c

theorem stuck_resolveOne {T : Type v} {size : Nat} {c : BufCfg T}
    (h : BufStuck size c) : BufStuck size (resolveOne c) := by
  obtain ⟨h1, h2, h3, h4, h5⟩ := h
  cases hpe : c.pending with
  | nil => exact ⟨by simpa [resolveOne, hpe] using h1, by simpa [resolveOne, hpe] using h2,
      by simpa [resolveOne, hpe] using h3, by simp [resolveOne, hpe],
      by simpa [resolveOne, hpe] using h5⟩
  | cons f rest =>
    have hf : f = Except.error () := h4 f (hpe ▸ List.mem_cons_self f rest)
    subst hf
    refine ⟨by simpa [resolveOne, hpe] using h1, by simpa [resolveOne, hpe] using h2,
      by simpa [resolveOne, hpe] using h3, ?_, ?_⟩
    · intro e he
      simp only [resolveOne, hpe] at he
      exact h4 e (hpe ▸ List.mem_cons_of_mem _ he)
    · have heq : pendingSize (resolveOne c) = pendingSize c := by
        simp [resolveOne, hpe, pendingSize]
        omega
      omega

theorem stuck_resolveN {T : Type v} {size : Nat} :
    ∀ (k : Nat) (c : BufCfg T), BufStuck size c → BufStuck size (resolveN k c) := by
  intro k
  induction k with
  | zero => intro c h; exact h
  | succ k ih => intro c h; exact ih _ (stuck_resolveOne h)

theorem stuck_queueMoreIssue {T : Type v} {size : Nat} :
    ∀ (fuel : Nat) (c : BufCfg T), BufStuck size c →
      queueMoreIssue size fuel c = c := by
  intro fuel
  cases fuel with
  | zero => intro c h; rfl
  | succ fuel =>
    intro c h
    have h5 := h.2.2.2.2
    simp only [queueMoreIssue]
    rw [if_neg]
    intro hcon
    exact absurd hcon.2 (by omega)

theorem stuck_queueMore {T : Type v} {size : Nat} (co : BufCfg T × List Nat)
    (h : BufStuck size co.1) : BufStuck size (queueMore size co).1 := by
  simp only [queueMore, stuck_queueMoreIssue size co.1 h]
  exact stuck_resolveN _ _ h

theorem stuck_loop_none {T : Type v} {size : Nat} :
    ∀ (fuel : Nat) (co : BufCfg T × List Nat), BufStuck size co.1 →
      bufferingNextLoop size fuel co = none := by
  intro fuel
  induction fuel with
  | zero => intro co h; rfl
  | succ fuel ih =>
    intro co h
    obtain ⟨h1, h2, h3, h4, h5⟩ := h
    simp only [bufferingNextLoop]
    rw [if_pos (Or.inl h1)]
    have hnro : nextReadyOne size (fuel + 1) co = some (co, none) := by
      simp [nextReadyOne, h2]
    rw [hnro]
    apply ih
    have hq : BufStuck size (queueMore size co).1 :=
      stuck_queueMore co ⟨h1, h2, h3, h4, h5⟩
    split
    · exact stuck_resolveN _ _ hq
    · exact hq

theorem loop_none_of_stuck_after {T : Type v} (size : Nat) :
    ∀ (fuel : Nat) (co : BufCfg T × List Nat), co.1.stop = false →
      co.1.ready = [] → BufStuck size (queueMore size co).1 →
      bufferingNextLoop size fuel co = none := by
  intro fuel co hstop hready hq
  cases fuel with
  | zero => rfl
  | succ fuel =>
    simp only [bufferingNextLoop]
    rw [if_pos (Or.inl hstop)]
    have hnro : nextReadyOne size (fuel + 1) co = some (co, none) := by
      simp [nextReadyOne, hready]
    rw [hnro]
    apply stuck_loop_none
    split
    · exact stuck_resolveN _ _ hq
    · exact hq

theorem errHang_loop :
    ∀ (fuel : Nat) (oracle : List Nat),
      bufferingNextLoop 1 fuel
        (bufferingInit [(Except.error () : Except Unit Nat)], oracle) = none := by
  intro fuel oracle
  refine loop_none_of_stuck_after 1 fuel _ rfl rfl ?_
  have h1 : queueMoreIssue 1 1
      (bufferingInit [(Except.error () : Except Unit Nat)]) =
      { stop := false, pending := [Except.error ()], dead := 0,
        ready := [], src := [], delivered := [], issued := 1 } := by rfl
  simp only [queueMore, h1]
  apply stuck_resolveN
  refine ⟨rfl, rfl, rfl, ?_, ?_⟩
  · intro e he
    simpa using he
  · simp [pendingSize]

/-- C9 evaluation of the code at the failing inputs.  A fetch whose promise
rejects never runs its then callback: its pending-map entry is never
removed and its failure never reaches ready, so the failure is silently
swallowed rather than failing the enclosing pull.  First conjunct: with
buffer size 1 a single rejecting fetch wedges the engine forever; under
every scheduler oracle and every fuel the drain never completes, matching
the code where next() spins in its polling loop without ever settling.
Second conjunct: with buffer size 2 and the middle fetch rejecting, the
drain completes, both ok values are delivered, the error is never reported
downstream, and the dead entry still occupies a slot of the pending map. -/
theorem bufferingIterable_rejected_fetch_swallowed :
    (∀ (n : Nat) (oracle : List Nat),
        drainBuffering 1 n
          (bufferingInit [(Except.error () : Except Unit Nat)], oracle) =
          none) ∧
      (drainBuffering 2 30
          (bufferingInit [Except.ok 1, Except.error (), Except.ok 2],
            List.replicate 30 10)).map (fun p => (p.1, p.2.dead)) =
        some (([1, 2] : List Nat), 1) := by
  constructor
  · intro n oracle
    cases n with
    | zero => rfl
    | succ n =>
      have hnext : bufferingNext 1 (n + 1)
          (bufferingInit [(Except.error () : Except Unit Nat)], oracle) =
          none := by
        simp only [bufferingNext]
        rw [if_neg (by simp [bufferingInit])]
        exact errHang_loop (n + 1) oracle
      simp only [drainBuffering, hnext]
  · rfl

/-!
Generic, composable models of the remaining combinators, used by the
AsyncStream facade below.  They follow the same sources as the list-backed
models proved about above, but take an arbitrary upstream AsyncIterable so
that facade chains compose; loops are bounded by a fuel argument fixed at
construction.  The buffering combinator here is the eager-scheduler
instance of the engine modelled above: over a converted synchronous source
every issued fetch has resolved by the next suspension point, so each
queueMore resolves the whole pending map.
-/

/-- The closure state of the generic transforming combinator. -/
structure TransformStateG (σ : Type u) (A : Type v) where
  stop : Bool
  acc : Option A
  up : σ

/-- The fold loop of transformingAsyncIterable (src/AsyncIterables.ts lines
208 to 227) over a generic upstream. -/
def transformingLoopG {σ : Type u} {T : Type v} {A : Type w} {R : Type x}
    (it : AsyncIterable σ T) (tf : Transformer T A R) :
    Nat → A → σ → TransformStateG σ A × Option R
  | 0, acc, up => (⟨false, some acc, up⟩, none)
  | fuel + 1, acc, up =>
    let p := it.next up
    match p.2 with
    | some t =>
      let r := tf.transformer acc t
      match r.2.2 with
      | some v => (⟨false, if r.2.1 then none else some r.1, p.1⟩, some v)
      | none => transformingLoopG it tf fuel r.1 p.1
    | none => (⟨true, some acc, p.1⟩, tf.finisher acc)

/-- transformingAsyncIterable (src/AsyncIterables.ts lines 197 to 237) over
a generic upstream. -/
def transformingGenAsyncIterable {σ : Type u} {T : Type v} {A : Type w}
    {R : Type x} (it : AsyncIterable σ T) (tf : Transformer T A R)
    (fuel : Nat) : AsyncIterable (TransformStateG σ A) R where
  next st :=
    let acc0 := st.acc.getD tf.supplier
    match st.stop with
    | true => ({ st with acc := some acc0 }, none)
    | false => transformingLoopG it tf fuel acc0 st.up
  stop st := ⟨true, st.acc, it.stop st.up⟩

/-- The closure state of the generic flat-mapping combinator. -/
structure FlatMapStateG (σ : Type u) (R : Type v) where
  done : Bool
  available : List (List R)
  up : σ

/-- flatMappedAsyncIterable (src/AsyncIterables.ts lines 138 to 190) over a
generic upstream, sequential model (see the list-backed model above). -/
def flatMappedAsyncIterable {σ : Type u} {T : Type v} {R : Type w}
    (it : AsyncIterable σ T) (mapper : T → List R) (fuel : Nat) :
    AsyncIterable (FlatMapStateG σ R) R where
  next := flatMappedNextG it mapper fuel
  stop st := ⟨true, st.available, it.stop st.up⟩
where
  flatMappedNextG (it : AsyncIterable σ T) (mapper : T → List R) :
      Nat → FlatMapStateG σ R → FlatMapStateG σ R × Option R
    | 0, st => (st, none)
    | fuel + 1, st =>
      match st.done with
      | true => (st, none)
      | false =>
        match st.available with
        | [] => (st, none)
        | (r :: rs) :: tb => ({ st with available := rs :: tb }, some r)
        | [] :: tb =>
          match tb with
          | b :: bs =>
            flatMappedNextG it mapper fuel { st with available := b :: bs }
          | [] =>
            let p := it.next st.up
            match p.2 with
            | some t =>
              flatMappedNextG it mapper fuel
                { st with available := [mapper t], up := p.1 }
            | none =>
              flatMappedNextG it mapper fuel
                { st with available := [], up := p.1 }

/-- The closure state of the generic buffering combinator. -/
structure BufStateG (σ : Type u) (T : Type v) where
  stop : Bool
  pending : List (Option T)
  ready : List (Option T)
  up : σ

/-- queueMore of the eager-scheduler buffering instance: issue fetches up
to the buffer size, then (at the micro sleep) every issued fetch resolves,
newest ending up at the head of ready. -/
def queueMoreG {σ : Type u} {T : Type v} (it : AsyncIterable σ T)
    (size : Nat) : Nat → BufStateG σ T → BufStateG σ T
  | 0, st => { st with ready := st.pending.reverse ++ st.ready, pending := [] }
  | fuel + 1, st =>
    if st.stop = false ∧ st.pending.length < size then
      let p := it.next st.up
      queueMoreG it size fuel
        { st with pending := st.pending ++ [p.2], up := p.1 }
    else { st with ready := st.pending.reverse ++ st.ready, pending := [] }

/-- nextReadyOne of the eager-scheduler buffering instance. -/
def nextReadyOneG {σ : Type u} {T : Type v} (it : AsyncIterable σ T)
    (size : Nat) : Nat → BufStateG σ T → BufStateG σ T × Option (Option T)
  | 0, st => (st, none)
  | fuel + 1, st =>
    match st.ready with
    | [] => (st, none)
    | buffered :: rest =>
      let st1 := queueMoreG it size size { st with ready := rest }
      match buffered with
      | some v => (st1, some (some v))
      | none => nextReadyOneG it size fuel { st1 with stop := true }

/-- bufferingIterable (src/AsyncIterables.ts lines 283 to 354) over a
generic upstream, eager-scheduler instance. -/
def bufferingIterable {σ : Type u} {T : Type v} (it : AsyncIterable σ T)
    (size : Nat) (fuel : Nat) : AsyncIterable (BufStateG σ T) T where
  next st :=
    if st.stop = true ∧ st.ready.isEmpty = true then (st, none)
    else loop it size fuel st
  stop st := { st with stop := true, up := it.stop st.up }
where
  loop (it : AsyncIterable σ T) (size : Nat) :
      Nat → BufStateG σ T → BufStateG σ T × Option T
    | 0, st => (st, none)
    | fuel + 1, st =>
      if st.stop = false ∨ st.ready.isEmpty = false then
        match nextReadyOneG it size (fuel + 1) st with
        | (st1, some v) => (st1, v)
        | (st1, none) => loop it size fuel (queueMoreG it size size st1)
      else (st, none)

/-- The indexed element shape of AsyncStream.indexed. -/
structure Indexed (T : Type v) where
  index : Nat
  value : T
deriving DecidableEq

/-- The mapping iterable built by AsyncStream.indexed (src/Collectors.ts
lines 367 to 370, the AsyncStream class): map with a closure counter that
advances once per present value. -/
def indexedAsyncIterable {σ : Type u} {T : Type v}
    (it : AsyncIterable σ T) : AsyncIterable (Nat × σ) (Indexed T) where
  next st :=
    let p := it.next st.2
    match p.2 with
    | some v => ((st.1 + 1, p.1), some ⟨st.1, v⟩)
    | none => ((st.1, p.1), none)
  stop st := (st.1, it.stop st.2)

/-- Transformers.sorted (src/Transformers.ts lines 76 to 85): absorb the
whole stream, the finisher emits it sorted. -/
def Transformers.sorted {T : Type v} (le : T → T → Bool) :
    Transformer T (List T) (List T) where
  supplier := []
  transformer a t := (a ++ [t], false, none)
  finisher a := some (a.mergeSort le)

/-- Transformers.distinct (src/Transformers.ts lines 56 to 69): emit a
value the first time it is seen; the seen set is modelled as a list. -/
def Transformers.distinct {T : Type v} [DecidableEq T] :
    Transformer T (List T) T where
  supplier := []
  transformer a t :=
    if t ∈ a then (a, false, none) else (a ++ [t], false, some t)
  finisher _ := none

/-!
The AsyncStream facade (the AsyncStream class of src/Collectors.ts lines
201 to 437).  A stream owns one AsyncIterable (here: its operations plus
its current state) and the hasTerminated flag.  Every consuming operation
goes through the private terminal helper, which fails when the flag is
already set and sets it otherwise.  Non-terminal combinators construct a
new stream around a new combinator iterable and never touch the flag.
collectAsync and Collectors.counting are referenced by the class but their
definitions are not part of the sources; they are modelled from the spec
where noted.
-/

/-- The Collector descriptor (src/Collectors.ts lines 10 to 27); the
TypeScript accumulator mutates in place, the pure model returns the new
accumulator. -/
structure Collector (T : Type u) (A : Type v) (R : Type w) where
  supplier : A
  accumulator : A → T → A
  finisher : A → R

/-- Collectors.toArray (src/Collectors.ts lines 58 to 64). -/
def Collectors.toArray {T : Type u} : Collector T (List T) (List T) where
  supplier := []
  accumulator a t := a ++ [t]
  finisher a := a

/-- Modelled from the spec: Collectors.counting is called by
AsyncStream.count but is absent from the sources; section 6 lists a count
of all values as a terminal result, so the collector counts one per
element. -/
def Collectors.counting {T : Type u} : Collector T Nat Nat where
  supplier := 0
  accumulator a _ := a + 1
  finisher a := a

/-- Modelled from the spec: collectAsync is called by AsyncStream.collect
but is absent from the sources; sections 2 and 6: a terminal operation
pulls one item at a time from the outermost combinator until absent,
folding each into the collector, and delivers the finished result.  The
fuel bounds the pulls of the model, finishing early when it runs out. -/
def collectAsync {σ : Type u} {T : Type v} {A : Type w} {R : Type x}
    (it : AsyncIterable σ T) (collector : Collector T A R) :
    Nat → A → σ → R × σ
  | 0, a, st => (collector.finisher a, st)
  | fuel + 1, a, st =>
    let p := it.next st
    match p.2 with
    | some t => collectAsync it collector fuel (collector.accumulator a t) p.1
    | none => (collector.finisher a, p.1)

/-- The AsyncStream facade: one AsyncIterable with its current state, and
the hasTerminated flag (src/Collectors.ts lines 252 to 261). -/
structure AsyncStream (σ : Type u) (T : Type v) where
  asyncIterable : AsyncIterable σ T
  state : σ
  hasTerminated : Bool

/-- The private terminal helper (src/Collectors.ts lines 271 to 277): fail
when the stream has terminated, otherwise set the flag and run the
operation. -/
def AsyncStream.terminal {σ : Type u} {T : Type v} {ρ : Type w}
    (s : AsyncStream σ T) (operation : σ → ρ × σ) :
    Except String (ρ × AsyncStream σ T) :=
  if s.hasTerminated then Except.error "Cannot reuse a terminated stream"
  else
    let r := operation s.state
    Except.ok (r.1, { s with hasTerminated := true, state := r.2 })

/-- getIterable (src/Collectors.ts lines 267 to 269): hand out the internal
iterable through the terminal helper. -/
def AsyncStream.getIterable {σ : Type u} {T : Type v} (s : AsyncStream σ T) :
    Except String ((AsyncIterable σ T × σ) × AsyncStream σ T) :=
  s.terminal fun st => ((s.asyncIterable, st), st)

/-- The body of findFirst without a predicate (src/Collectors.ts lines 292
to 299): pull one value, then stop the iterable. -/
def findFirstOp {σ : Type u} {T : Type v} (it : AsyncIterable σ T) (st : σ) :
    Option T × σ :=
  let p := it.next st
  (p.2, it.stop p.1)

/-- findFirst without a predicate (src/Collectors.ts lines 283 to 301). -/
def AsyncStream.findFirst {σ : Type u} {T : Type v} (s : AsyncStream σ T) :
    Except String (Option T × AsyncStream σ T) :=
  s.terminal (findFirstOp s.asyncIterable)

/-- filter (src/Collectors.ts lines 338 to 342): a fresh facade around a
filtering iterable; the flag of the original is not consulted. -/
def AsyncStream.filter {σ : Type u} {T : Type v} (s : AsyncStream σ T)
    (predicate : T → Bool) (fuel : Nat) : AsyncStream (FilterState σ) T :=
  ⟨filteredAsyncIterable s.asyncIterable predicate fuel, ⟨false, s.state⟩,
    false⟩

/-- findFirst with a predicate (src/Collectors.ts lines 286 to 290):
terminal on this stream, then findFirst on the fresh filtered stream,
whose own terminal check always passes. -/
def AsyncStream.findFirstWith {σ : Type u} {T : Type v} (s : AsyncStream σ T)
    (predicate : T → Bool) (fuel : Nat) :
    Except String (Option T × AsyncStream σ T) :=
  s.terminal fun st =>
    let r := findFirstOp (filteredAsyncIterable s.asyncIterable predicate fuel)
      ⟨false, st⟩
    (r.1, r.2.up)

/-- anyMatch (src/Collectors.ts lines 307 to 311). -/
def AsyncStream.anyMatch {σ : Type u} {T : Type v} (s : AsyncStream σ T)
    (predicate : T → Bool) (fuel : Nat) :
    Except String (Bool × AsyncStream σ T) :=
  s.terminal fun st =>
    let r := findFirstOp (filteredAsyncIterable s.asyncIterable predicate fuel)
      ⟨false, st⟩
    (r.1.isSome, r.2.up)

/-- noneMatch (src/Collectors.ts lines 317 to 321). -/
def AsyncStream.noneMatch {σ : Type u} {T : Type v} (s : AsyncStream σ T)
    (predicate : T → Bool) (fuel : Nat) :
    Except String (Bool × AsyncStream σ T) :=
  s.terminal fun st =>
    let r := findFirstOp (filteredAsyncIterable s.asyncIterable predicate fuel)
      ⟨false, st⟩
    (r.1.isNone, r.2.up)

/-- allMatch (src/Collectors.ts lines 327 to 331): the negation of
anyMatch of the negated predicate; the terminal flip happens inside
anyMatch. -/
def AsyncStream.allMatch {σ : Type u} {T : Type v} (s : AsyncStream σ T)
    (predicate : T → Bool) (fuel : Nat) :
    Except String (Bool × AsyncStream σ T) :=
  (s.anyMatch (fun t => !predicate t) fuel).map fun r => (!r.1, r.2)

/-- collect (src/Collectors.ts lines 434 to 436). -/
def AsyncStream.collect {σ : Type u} {T : Type v} {A : Type w} {R : Type x}
    (s : AsyncStream σ T) (collector : Collector T A R) (fuel : Nat) :
    Except String (R × AsyncStream σ T) :=
  s.terminal fun st =>
    collectAsync s.asyncIterable collector fuel collector.supplier st

/-- toArray (src/Collectors.ts lines 417 to 419). -/
def AsyncStream.toArray {σ : Type u} {T : Type v} (s : AsyncStream σ T)
    (fuel : Nat) : Except String (List T × AsyncStream σ T) :=
  s.collect Collectors.toArray fuel

/-- count (src/Collectors.ts lines 425 to 427). -/
def AsyncStream.count {σ : Type u} {T : Type v} (s : AsyncStream σ T)
    (fuel : Nat) : Except String (Nat × AsyncStream σ T) :=
  s.collect Collectors.counting fuel

/-- map (src/Collectors.ts lines 348 to 350). -/
def AsyncStream.map {σ : Type u} {T : Type v} {R : Type w}
    (s : AsyncStream σ T) (mapper : T → R) : AsyncStream σ R :=
  ⟨mappedAsyncIterable s.asyncIterable mapper, s.state, false⟩

/-- flatMap (src/Collectors.ts lines 356 to 360), inner streams given as
arrays. -/
def AsyncStream.flatMap {σ : Type u} {T : Type v} {R : Type w}
    (s : AsyncStream σ T) (mapper : T → List R) (fuel : Nat) :
    AsyncStream (FlatMapStateG σ R) R :=
  ⟨flatMappedAsyncIterable s.asyncIterable mapper fuel, ⟨false, [[]], s.state⟩,
    false⟩

/-- transform (src/Collectors.ts lines 395 to 399). -/
def AsyncStream.transform {σ : Type u} {T : Type v} {A : Type w} {R : Type x}
    (s : AsyncStream σ T) (tf : Transformer T A R) (fuel : Nat) :
    AsyncStream (TransformStateG σ A) R :=
  ⟨transformingGenAsyncIterable s.asyncIterable tf fuel, ⟨false, none, s.state⟩,
    false⟩

/-- buffer (src/Collectors.ts lines 409 to 411). -/
def AsyncStream.buffer {σ : Type u} {T : Type v} (s : AsyncStream σ T)
    (size fuel : Nat) : AsyncStream (BufStateG σ T) T :=
  ⟨bufferingIterable s.asyncIterable size fuel, ⟨false, [], [], s.state⟩,
    false⟩

/-- indexed (src/Collectors.ts lines 367 to 370). -/
def AsyncStream.indexed {σ : Type u} {T : Type v} (s : AsyncStream σ T) :
    AsyncStream (Nat × σ) (Indexed T) :=
  ⟨indexedAsyncIterable s.asyncIterable, (0, s.state), false⟩

/-- sorted (src/Collectors.ts lines 377 to 381): transform with the
sorting transformer, then flatMap each emitted array. -/
def AsyncStream.sorted {σ : Type u} {T : Type v} (s : AsyncStream σ T)
    (le : T → T → Bool) (fuel1 fuel2 : Nat) :
    AsyncStream (FlatMapStateG (TransformStateG σ (List T)) T) T :=
  (s.transform (Transformers.sorted le) fuel1).flatMap (fun l => l) fuel2

/-- distinct (src/Collectors.ts lines 387 to 389). -/
def AsyncStream.distinct {σ : Type u} {T : Type v} [DecidableEq T]
    (s : AsyncStream σ T) (fuel : Nat) :
    AsyncStream (TransformStateG σ (List T)) T :=
  s.transform Transformers.distinct fuel

theorem terminal_fresh {σ : Type u} {T : Type v} {ρ : Type w}
    (s : AsyncStream σ T) (h : s.hasTerminated = false) (op : σ → ρ × σ) :
    s.terminal op = Except.ok ((op s.state).1,
      { s with hasTerminated := true, state := (op s.state).2 }) := by
  simp [AsyncStream.terminal, h]

theorem terminal_used {σ : Type u} {T : Type v} {ρ : Type w}
    (s : AsyncStream σ T) (h : s.hasTerminated = true) (op : σ → ρ × σ) :
    s.terminal op = Except.error "Cannot reuse a terminated stream" := by
  simp [AsyncStream.terminal, h]

/-- C6: on every AsyncStream instance at most one terminal operation ever
succeeds.  On a fresh stream each terminal operation (findFirst, a
predicated match, collect, toArray, count) succeeds and flips the
terminated flag; on a terminated stream each fails immediately with the
reuse error; any operation routed through the terminal helper, applied
after any successful terminal call, fails.  The non-terminal combinators
(filter, map, flatMap, transform, buffer, indexed, sorted, distinct)
always succeed (they are total, never consulting the flag), return a
fresh unterminated facade, and leave the original stream and its source
state untouched (the new state embeds the original state unchanged, so
nothing was pulled). -/
theorem asyncStream_terminal_once {σ : Type u} {T : Type v} {R : Type w}
    {A2 : Type u2} {R2 : Type u3}
    (s : AsyncStream σ T) (p : T → Bool) (m : T → R) (fm : T → List R)
    (tf : Transformer T (List T) R) (cl : Collector T A2 R2)
    (le : T → T → Bool) [DecidableEq T] (size fuel : Nat) :
    (s.hasTerminated = false →
      (∃ r s2, s.findFirst = Except.ok (r, s2) ∧ s2.hasTerminated = true) ∧
      (∃ r s2, s.findFirstWith p fuel = Except.ok (r, s2) ∧
        s2.hasTerminated = true) ∧
      (∃ r s2, s.anyMatch p fuel = Except.ok (r, s2) ∧
        s2.hasTerminated = true) ∧
      (∃ r s2, s.noneMatch p fuel = Except.ok (r, s2) ∧
        s2.hasTerminated = true) ∧
      (∃ r s2, s.allMatch p fuel = Except.ok (r, s2) ∧
        s2.hasTerminated = true) ∧
      (∃ r s2, s.collect cl fuel = Except.ok (r, s2) ∧
        s2.hasTerminated = true) ∧
      (∃ r s2, s.toArray fuel = Except.ok (r, s2) ∧
        s2.hasTerminated = true) ∧
      (∃ r s2, s.count fuel = Except.ok (r, s2) ∧ s2.hasTerminated = true)) ∧
    (s.hasTerminated = true →
      s.findFirst = Except.error "Cannot reuse a terminated stream" ∧
      s.findFirstWith p fuel = Except.error "Cannot reuse a terminated stream" ∧
      s.anyMatch p fuel = Except.error "Cannot reuse a terminated stream" ∧
      s.noneMatch p fuel = Except.error "Cannot reuse a terminated stream" ∧
      s.allMatch p fuel = Except.error "Cannot reuse a terminated stream" ∧
      s.collect cl fuel = Except.error "Cannot reuse a terminated stream" ∧
      s.toArray fuel = Except.error "Cannot reuse a terminated stream" ∧
      s.count fuel = Except.error "Cannot reuse a terminated stream") ∧
    (∀ (ρ : Type u4) (op : σ → ρ × σ) (r : ρ) (s2 : AsyncStream σ T),
      s.terminal op = Except.ok (r, s2) →
      ∀ (ρ2 : Type u5) (op2 : σ → ρ2 × σ),
        s2.terminal op2 = Except.error "Cannot reuse a terminated stream") ∧
    ((s.filter p fuel).hasTerminated = false ∧
      (s.filter p fuel).state = ⟨false, s.state⟩) ∧
    ((s.map m).hasTerminated = false ∧ (s.map m).state = s.state) ∧
    ((s.flatMap fm fuel).hasTerminated = false ∧
      (s.flatMap fm fuel).state.up = s.state) ∧
    ((s.transform tf fuel).hasTerminated = false ∧
      (s.transform tf fuel).state.up = s.state) ∧
    ((s.buffer size fuel).hasTerminated = false ∧
      (s.buffer size fuel).state.up = s.state) ∧
    (s.indexed.hasTerminated = false ∧ s.indexed.state.2 = s.state) ∧
    ((s.sorted le fuel fuel).hasTerminated = false ∧
      (s.sorted le fuel fuel).state.up.up = s.state) ∧
    ((s.distinct fuel).hasTerminated = false ∧
      (s.distinct fuel).state.up = s.state) := by
  refine ⟨?_, ?_, ?_, ⟨rfl, rfl⟩, ⟨rfl, rfl⟩, ⟨rfl, rfl⟩, ⟨rfl, rfl⟩,
    ⟨rfl, rfl⟩, ⟨rfl, rfl⟩, ⟨rfl, rfl⟩, ⟨rfl, rfl⟩⟩
  · intro h
    refine ⟨⟨_, _, terminal_fresh s h _, rfl⟩, ⟨_, _, terminal_fresh s h _, rfl⟩,
      ⟨_, _, terminal_fresh s h _, rfl⟩, ⟨_, _, terminal_fresh s h _, rfl⟩,
      ?_, ⟨_, _, terminal_fresh s h _, rfl⟩, ⟨_, _, terminal_fresh s h _, rfl⟩,
      ⟨_, _, terminal_fresh s h _, rfl⟩⟩
    · exact ⟨!((findFirstOp (filteredAsyncIterable s.asyncIterable
          (fun t => !p t) fuel) ⟨false, s.state⟩).1.isSome),
        AsyncStream.mk s.asyncIterable
          ((findFirstOp (filteredAsyncIterable s.asyncIterable
            (fun t => !p t) fuel) ⟨false, s.state⟩).2.up) true,
        by
          simp only [AsyncStream.allMatch, AsyncStream.anyMatch,
            terminal_fresh s h]
          rfl,
        rfl⟩
  · intro h
    refine ⟨terminal_used s h _, terminal_used s h _, terminal_used s h _,
      terminal_used s h _, ?_, terminal_used s h _, terminal_used s h _,
      terminal_used s h _⟩
    simp only [AsyncStream.allMatch, AsyncStream.anyMatch, terminal_used s h]
    rfl
  · intro ρ op r s2 heq ρ2 op2
    have h2 : s2.hasTerminated = true := by
      simp only [AsyncStream.terminal] at heq
      split at heq
      · exact absurd heq (by simp)
      · obtain ⟨rfl, rfl⟩ := Prod.mk.injEq .. ▸ (Except.ok.injEq _ _).mp heq
        rfl
    exact terminal_used s2 h2 op2

/-- Witness for C6 on a concrete fresh stream over the source 1, 2, 3:
its first findFirst succeeds with a terminated stream, and a count on a
terminated stream fails with the reuse error. -/
theorem asyncStream_terminal_once_witness :
    (∃ r s2, (AsyncStream.mk (iterableToAsync (T := Nat)) [1, 2, 3]
        false).findFirst = Except.ok (r, s2) ∧ s2.hasTerminated = true) ∧
      (AsyncStream.mk (iterableToAsync (T := Nat)) [1, 2, 3] true).count 5 =
        Except.error "Cannot reuse a terminated stream" :=
  ⟨(asyncStream_terminal_once.{0, 0, 0, 0, 0, 0, 0}
      (AsyncStream.mk iterableToAsync [1, 2, 3] false)
      (fun _ => true) (fun n => n) (fun n => [n])
      ⟨[], fun a _ => (a, false, none), fun _ => none⟩ Collectors.toArray
      (fun a b => decide (a ≤ b)) 2 5).1 rfl |>.1,
    ((asyncStream_terminal_once.{0, 0, 0, 0, 0, 0, 0}
      (AsyncStream.mk iterableToAsync [1, 2, 3] true)
      (fun _ => true) (fun n => n) (fun n => [n])
      ⟨[], fun a _ => (a, false, none), fun _ => none⟩ Collectors.toArray
      (fun a b => decide (a ≤ b)) 2 5).2.1 rfl).2.2.2.2.2.2.2⟩

/-- C10: getIterable itself goes through the terminal helper.  On a fresh
stream it succeeds, hands out the iterable with its state unconsumed, and
flips the terminated flag; afterwards any terminal operation, including a
second getIterable, fails with the reuse error even though no value of
the stream was consumed. -/
theorem asyncStream_getIterable_is_terminal {σ : Type u} {T : Type v}
    (s : AsyncStream σ T) (fuel : Nat) :
    (s.hasTerminated = false →
      s.getIterable = Except.ok ((s.asyncIterable, s.state),
        { s with hasTerminated := true }) ) ∧
    (s.hasTerminated = true →
      s.getIterable = Except.error "Cannot reuse a terminated stream") ∧
    (∀ r s2, s.getIterable = Except.ok (r, s2) →
      s2.hasTerminated = true ∧ s2.state = s.state ∧
      s2.getIterable = Except.error "Cannot reuse a terminated stream" ∧
      s2.findFirst = Except.error "Cannot reuse a terminated stream" ∧
      s2.toArray fuel = Except.error "Cannot reuse a terminated stream" ∧
      s2.count fuel = Except.error "Cannot reuse a terminated stream") := by
  refine ⟨?_, ?_, ?_⟩
  · intro h
    exact terminal_fresh s h _
  · intro h
    exact terminal_used s h _
  · intro r s2 heq
    simp only [AsyncStream.getIterable, AsyncStream.terminal] at heq
    split at heq
    · exact absurd heq (by simp)
    · rename_i h
      obtain ⟨rfl, rfl⟩ := Prod.mk.injEq .. ▸ (Except.ok.injEq _ _).mp heq
      exact ⟨rfl, rfl,
        terminal_used { s with hasTerminated := true } rfl _,
        terminal_used { s with hasTerminated := true } rfl _,
        by simp [AsyncStream.toArray, AsyncStream.collect, AsyncStream.terminal],
        by simp [AsyncStream.count, AsyncStream.collect, AsyncStream.terminal]⟩

/-- Witness for C10 on a concrete fresh stream over the source 1, 2, 3:
getIterable succeeds without consuming the state, and a second
getIterable on the same instance fails. -/
theorem asyncStream_getIterable_is_terminal_witness :
    (AsyncStream.mk (iterableToAsync (T := Nat)) [1, 2, 3]
        false).getIterable = Except.ok ((iterableToAsync, [1, 2, 3]),
      AsyncStream.mk iterableToAsync [1, 2, 3] true) ∧
      (AsyncStream.mk (iterableToAsync (T := Nat)) [1, 2, 3]
        true).getIterable = Except.error "Cannot reuse a terminated stream" :=
  ⟨(asyncStream_getIterable_is_terminal
      (AsyncStream.mk iterableToAsync [1, 2, 3] false) 5).1 rfl,
    (asyncStream_getIterable_is_terminal
      (AsyncStream.mk iterableToAsync [1, 2, 3] true) 5).2.1 rfl⟩

/-!
Behaviour of the buffering engine after stop() (for claim C8): the stopped
engine issues no further upstream fetches, keeps its stop flag, and every
next() call either delivers one already resolved buffered value (strictly
shrinking the stock of in-flight plus ready results) or reports absent
with the ready list empty; once ready is empty the configuration is a
fixed point and every later call reports absent immediately.
-/

/-- The stock of undelivered results of the engine. -/
def bufStock {T : Type v} (c : BufCfg T) : Nat :=
  c.pending.length + c.ready.length

theorem stopped_queueMoreIssue {T : Type v} (size : Nat) (fuel : Nat)
    (c : BufCfg T) (h : c.stop = true) : queueMoreIssue size fuel c = c := by
  cases fuel with
  | zero => rfl
  | succ fuel =>
    simp only [queueMoreIssue]
    rw [if_neg]
    intro hcon
    rw [h] at hcon
    exact Bool.noConfusion hcon.1

theorem resolveOne_stopkeep {T : Type v} (c : BufCfg T) :
    (resolveOne c).stop = c.stop ∧ (resolveOne c).issued = c.issued ∧
      bufStock (resolveOne c) ≤ bufStock c := by
  cases hpe : c.pending with
  | nil => simp [resolveOne, hpe]
  | cons f rest =>
    cases f with
    | ok v => simp [resolveOne, hpe, bufStock]; try omega
    | error e => simp [resolveOne, hpe, bufStock]; try omega

theorem resolveN_stopkeep {T : Type v} :
    ∀ (k : Nat) (c : BufCfg T),
      (resolveN k c).stop = c.stop ∧ (resolveN k c).issued = c.issued ∧
        bufStock (resolveN k c) ≤ bufStock c := by
  intro k
  induction k with
  | zero => intro c; exact ⟨rfl, rfl, Nat.le.refl⟩
  | succ k ih =>
    intro c
    obtain ⟨h1, h2, h3⟩ := ih (resolveOne c)
    obtain ⟨g1, g2, g3⟩ := resolveOne_stopkeep c
    exact ⟨h1.trans g1, h2.trans g2, le_trans h3 g3⟩

theorem queueMore_stopkeep {T : Type v} (size : Nat) (co : BufCfg T × List Nat)
    (h : co.1.stop = true) :
    (queueMore size co).1.stop = true ∧
      (queueMore size co).1.issued = co.1.issued ∧
      bufStock (queueMore size co).1 ≤ bufStock co.1 := by
  simp only [queueMore, stopped_queueMoreIssue size size co.1 h]
  obtain ⟨h1, h2, h3⟩ := resolveN_stopkeep (takeOracle co.2).1 co.1
  exact ⟨h1.trans h, h2, h3⟩

theorem nextReadyOne_stopped {T : Type v} (size : Nat) :
    ∀ (fuel : Nat) (co : BufCfg T × List Nat), co.1.stop = true →
      ∀ (co' : BufCfg T × List Nat) (r : Option T),
        nextReadyOne size fuel co = some (co', r) →
        co'.1.stop = true ∧ co'.1.issued = co.1.issued ∧
          (r.isSome → bufStock co'.1 < bufStock co.1) ∧
          (r = none → bufStock co'.1 ≤ bufStock co.1 ∧ co'.1.ready = []) := by
  intro fuel
  induction fuel with
  | zero => intro co h co' r heq; exact absurd heq (by simp [nextReadyOne])
  | succ fuel ih =>
    intro co h co' r heq
    rcases hre : co.1.ready with _ | ⟨buffered, rest⟩
    · simp only [nextReadyOne, hre] at heq
      obtain ⟨rfl, rfl⟩ := Prod.mk.injEq .. ▸ (Option.some.injEq _ _).mp heq
      exact ⟨h, rfl, by intro hcon; exact absurd hcon (by simp),
        fun _ => ⟨Nat.le.refl, hre⟩⟩
    · have hstock1 : bufStock { co.1 with ready := rest } < bufStock co.1 := by
        simp [bufStock, hre]
      have hq := queueMore_stopkeep size
        (resolveN (takeOracle co.2).1 { co.1 with ready := rest },
          (takeOracle co.2).2)
        (by
          obtain ⟨r1, _, _⟩ :=
            resolveN_stopkeep (takeOracle co.2).1 { co.1 with ready := rest }
          exact r1.trans h)
      obtain ⟨r1, r2, r3⟩ :=
        resolveN_stopkeep (takeOracle co.2).1 { co.1 with ready := rest }
      cases buffered with
      | some v =>
        simp only [nextReadyOne, hre] at heq
        obtain ⟨rfl, rfl⟩ := Prod.mk.injEq .. ▸ (Option.some.injEq _ _).mp heq
        refine ⟨hq.1, ?_, ?_, ?_⟩
        · rw [show (∀ (c : BufCfg T) (l : List T),
              ({ c with delivered := l } : BufCfg T).issued = c.issued)
            from fun _ _ => rfl]
          exact hq.2.1.trans r2
        · intro _
          have : bufStock { (queueMore size
              (resolveN (takeOracle co.2).1 { co.1 with ready := rest },
                (takeOracle co.2).2)).1 with
              delivered := (queueMore size
                (resolveN (takeOracle co.2).1 { co.1 with ready := rest },
                  (takeOracle co.2).2)).1.delivered ++ [v] } =
              bufStock (queueMore size
                (resolveN (takeOracle co.2).1 { co.1 with ready := rest },
                  (takeOracle co.2).2)).1 := rfl
          rw [this]
          exact lt_of_le_of_lt (le_trans hq.2.2 r3) hstock1
        · intro hcon; exact absurd hcon (by simp)
      | none =>
        simp only [nextReadyOne, hre] at heq
        have hstop2 : ({ (queueMore size
            (resolveN (takeOracle co.2).1 { co.1 with ready := rest },
              (takeOracle co.2).2)).1 with stop := true } : BufCfg T).stop
            = true := rfl
        obtain ⟨k1, k2, k3, k4⟩ := ih _ hstop2 co' r heq
        refine ⟨k1, ?_, ?_, ?_⟩
        · rw [k2]
          exact hq.2.1.trans r2
        · intro hs
          exact lt_of_lt_of_le (k3 hs) (le_trans (le_trans hq.2.2 r3)
            (le_of_lt hstock1))
        · intro hn
          exact ⟨le_trans (k4 hn).1 (le_trans (le_trans hq.2.2 r3)
            (le_of_lt hstock1)), (k4 hn).2⟩

theorem bufferingNextLoop_stopped {T : Type v} (size : Nat) :
    ∀ (fuel : Nat) (co : BufCfg T × List Nat), co.1.stop = true →
      ∀ (co' : BufCfg T × List Nat) (r : Option T),
        bufferingNextLoop size fuel co = some (co', r) →
        co'.1.stop = true ∧ co'.1.issued = co.1.issued ∧
          (r.isSome → bufStock co'.1 < bufStock co.1) ∧
          (r = none → co'.1.ready = []) := by
  intro fuel
  induction fuel with
  | zero => intro co h co' r heq; exact absurd heq (by simp [bufferingNextLoop])
  | succ fuel ih =>
    intro co h co' r heq
    simp only [bufferingNextLoop] at heq
    split at heq
    · rcases hnro : nextReadyOne size (fuel + 1) co with _ | ⟨co1, r1⟩
      · rw [hnro] at heq
        exact absurd heq (by simp)
      · rw [hnro] at heq
        obtain ⟨k1, k2, k3, k4⟩ :=
          nextReadyOne_stopped size (fuel + 1) co h co1 r1 hnro
        cases r1 with
        | some v =>
          simp only at heq
          obtain ⟨rfl, rfl⟩ := Prod.mk.injEq .. ▸ (Option.some.injEq _ _).mp heq
          exact ⟨k1, k2, fun _ => k3 (by simp),
            fun hcon => absurd hcon (by simp)⟩
        | none =>
          simp only at heq
          have hq := queueMore_stopkeep size co1 k1
          have hafter : ∀ (co2 : BufCfg T × List Nat),
              co2 = (if 0 < pendingSize (queueMore size co1).1 then
                (resolveN (takeOracle (queueMore size co1).2).1
                  (queueMore size co1).1, (takeOracle (queueMore size co1).2).2)
              else queueMore size co1) →
              co2.1.stop = true ∧ co2.1.issued = co1.1.issued ∧
                bufStock co2.1 ≤ bufStock co1.1 := by
            intro co2 hco2
            subst hco2
            split
            · obtain ⟨m1, m2, m3⟩ :=
                resolveN_stopkeep (takeOracle (queueMore size co1).2).1
                  (queueMore size co1).1
              exact ⟨m1.trans hq.1, m2.trans hq.2.1, le_trans m3 hq.2.2⟩
            · exact hq
          obtain ⟨m1, m2, m3⟩ := hafter _ rfl
          obtain ⟨n1, n2, n3, n4⟩ := ih _ m1 co' r heq
          refine ⟨n1, ?_, ?_, n4⟩
          · rw [n2, m2, k2]
          · intro hs
            exact lt_of_lt_of_le (n3 hs) (le_trans m3 ((k4 rfl).1))
    · rename_i hcond
      obtain ⟨rfl, rfl⟩ := Prod.mk.injEq .. ▸ (Option.some.injEq _ _).mp heq
      push_neg at hcond
      refine ⟨h, rfl, fun hcon => absurd hcon (by simp), fun _ => ?_⟩
      have := hcond.2
      cases hready : co.1.ready with
      | nil => rfl
      | cons a l =>
        exfalso
        rw [hready] at this
        simp [List.isEmpty] at this

/-- After stop(), a next() call on the buffering engine keeps the stop
flag, issues no upstream fetch (the ghost issued count is unchanged),
delivers only by strictly shrinking the stock of already resolved or
in-flight results, and reports absent only with the ready list empty;
with the ready list empty the configuration is a fixed point whose every
later call reports absent immediately. -/
theorem bufferingNext_stopped {T : Type v} (size fuel : Nat)
    (co : BufCfg T × List Nat) (h : co.1.stop = true) :
    (co.1.ready = [] → bufferingNext size fuel co = some (co, none)) ∧
    (∀ (co' : BufCfg T × List Nat) (r : Option T),
      bufferingNext size fuel co = some (co', r) →
      co'.1.stop = true ∧ co'.1.issued = co.1.issued ∧
        (r.isSome → bufStock co'.1 < bufStock co.1) ∧
        (r = none → co'.1.ready = [])) := by
  constructor
  · intro hready
    simp [bufferingNext, h, hready]
  · intro co' r heq
    simp only [bufferingNext] at heq
    split at heq
    · rename_i hcond
      obtain ⟨rfl, rfl⟩ := Prod.mk.injEq .. ▸ (Option.some.injEq _ _).mp heq
      refine ⟨h, rfl, fun hcon => absurd hcon (by simp), fun _ => ?_⟩
      have := hcond.2
      cases hready : co.1.ready with
      | nil => rfl
      | cons a l =>
        exfalso
        rw [hready] at this
        simp [List.isEmpty] at this
    · exact bufferingNextLoop_stopped size fuel co h co' r heq

/-- Counterexample to C8 as stated: iterableToAsync and generatingIterable
are AsyncIterables produced by the library whose stop is a noop, and after
stop() they keep delivering present values that were never resolved or
buffered anywhere.  Concretely: after stop, iterableToAsync over 1, 2, 3
still delivers 1, 2 and 3 on the next three calls, and a constant
generating iterable delivers a present value on every one of the next five
calls, never reporting absent. -/
theorem asyncIterable_stop_counterexample :
    iterableToAsync.next (iterableToAsync.stop [1, 2, 3]) =
        ([2, 3], some 1) ∧
      (seqRun (iterableToAsync (T := Nat)) 3
        (iterableToAsync.stop [1, 2, 3])).1 = [some 1, some 2, some 3] ∧
      (seqRun (generatingIterable (fun (u : Unit) => (u, some 1))) 5
          ((generatingIterable (fun (u : Unit) => (u, some 1))).stop ())).1 =
        List.replicate 5 (some (1 : Nat)) ∧
      (mappedAsyncIterable (generatingIterable
          (fun (u : Unit) => (u, some 2))) (fun n => n * 2)).next
        ((mappedAsyncIterable (generatingIterable
          (fun (u : Unit) => (u, some 2))) (fun n => n * 2)).stop ()) =
        ((), some 4) := by
  refine ⟨rfl, rfl, rfl, rfl⟩

/-- C8 amended: the combinators that keep a stopped flag of their own
(filtered, flat-mapping, transforming, limiting, buffering) report absent
on every next() call after stop() has been invoked, the buffering engine
after draining its already resolved buffered values and without issuing
further upstream work; their stop forwards to the upstream iterable and is
idempotent whenever the upstream stop is.  The source adapters
(iterableToAsync, generatingIterable, emptyAsyncIterable) have a noop stop
and mappedAsyncIterable merely forwards stop without a flag of its own, so
those report absent after stop only when the upstream happens to. -/
theorem asyncIterable_stop_semantics {σ : Type u} {T : Type v} {R : Type w}
    {A : Type x} (it : AsyncIterable σ T) (p : T → Bool)
    (mapper : T → List R) (tf : Transformer T A R) (fuel : Nat)
    (hid : ∀ u, it.stop (it.stop u) = it.stop u) :
    (∀ (m : Nat) (st : FilterState σ),
      (seqRun (filteredAsyncIterable it p fuel) m
        ((filteredAsyncIterable it p fuel).stop st)).1 =
        List.replicate m none) ∧
    (∀ (max m : Nat) (st : LimitState σ),
      (seqRun (limitingIterable it max) m
        ((limitingIterable it max).stop st)).1 = List.replicate m none) ∧
    (∀ (tfL : Transformer T A R) (m : Nat) (st : TransformState T A),
      (seqRun (transformingAsyncIterable tfL) m
        ((transformingAsyncIterable tfL).stop st)).1 =
        List.replicate m none) ∧
    (∀ (mapperL : T → List R) (fuel2 : Nat) (st : FlatMapState T R),
      flatMappedNext mapperL fuel2 (flatMappedStop st) =
        (flatMappedStop st, none)) ∧
    (∀ (size fuel2 : Nat) (c : BufCfg T) (o : List Nat),
      (bufferingStop c).ready = [] →
      bufferingNext size fuel2 (bufferingStop c, o) =
        some ((bufferingStop c, o), none)) ∧
    (∀ (size fuel2 : Nat) (c : BufCfg T) (o : List Nat)
        (co' : BufCfg T × List Nat) (r : Option T),
      bufferingNext size fuel2 (bufferingStop c, o) = some (co', r) →
      co'.1.stop = true ∧ co'.1.issued = c.issued ∧
        (r.isSome → bufStock co'.1 < bufStock (bufferingStop c)) ∧
        (r = none → co'.1.ready = [])) ∧
    ((filteredAsyncIterable it p fuel).stop ∘
        (filteredAsyncIterable it p fuel).stop =
      (filteredAsyncIterable it p fuel).stop) ∧
    ((limitingIterable it 5).stop ∘ (limitingIterable it 5).stop =
      (limitingIterable it 5).stop) ∧
    (∀ (c : BufCfg T), bufferingStop (bufferingStop c) = bufferingStop c) ∧
    (∀ (st : FilterState σ), (filteredAsyncIterable it p fuel).stop st =
      ⟨true, it.stop st.up⟩) ∧
    (∀ (st : LimitState σ), (limitingIterable it 5).stop st =
      { st with stop := true, up := it.stop st.up }) ∧
    (∀ (st : FlatMapStateG σ R),
      (flatMappedAsyncIterable it mapper fuel).stop st =
        ⟨true, st.available, it.stop st.up⟩) ∧
    (∀ (st : TransformStateG σ A),
      (transformingGenAsyncIterable it tf fuel).stop st =
        ⟨true, st.acc, it.stop st.up⟩) ∧
    (∀ (st : BufStateG σ T), (bufferingIterable it 3 fuel).stop st =
      { st with stop := true, up := it.stop st.up }) := by
  refine ⟨?_, ?_, ?_, ?_, ?_, ?_, ?_, ?_, fun c => rfl, fun st => rfl,
    fun st => rfl, fun st => rfl, fun st => rfl, fun st => rfl⟩
  · intro m st
    have hstep : ∀ (st2 : FilterState σ), st2.stopped = true →
        filteredNextLoop it p fuel st2 = (st2, none) := by
      intro st2 h2
      cases fuel with
      | zero => rfl
      | succ f => simp [filteredNextLoop, h2]
    have hrun : ∀ (m2 : Nat) (st2 : FilterState σ), st2.stopped = true →
        (seqRun (filteredAsyncIterable it p fuel) m2 st2).1 =
          List.replicate m2 none := by
      intro m2
      induction m2 with
      | zero => intro st2 h2; rfl
      | succ m2 ih =>
        intro st2 h2
        have hnext : (filteredAsyncIterable it p fuel).next st2 = (st2, none) :=
          hstep st2 h2
        simp only [seqRun]
        rw [hnext]
        simp only [List.replicate_succ]
        rw [ih st2 h2]
    exact hrun m _ rfl
  · intro max m st
    exact limiting_stopped_run it max m _ rfl
  · intro tfL m st
    exact (transforming_stopped_run tfL m { st with stop := true } rfl).1
  · intro mapperL fuel2 st
    cases fuel2 with
    | zero => rfl
    | succ fuel2 => rfl
  · intro size fuel2 c o hready
    exact (bufferingNext_stopped size fuel2 (bufferingStop c, o) rfl).1 hready
  · intro size fuel2 c o co' r heq
    exact (bufferingNext_stopped size fuel2 (bufferingStop c, o) rfl).2 co' r heq
  · funext st
    simp [filteredAsyncIterable, Function.comp, hid]
  · funext st
    simp [limitingIterable, hid]

/-- Witness for the amended C8: a filtered iterable over a concrete list
source, stopped, reports absent on both of the next two calls (the source
stop of a converted synchronous iterable is a noop and trivially
idempotent, discharging the idempotence hypothesis). -/
theorem asyncIterable_stop_semantics_witness :
    (seqRun (filteredAsyncIterable (iterableToAsync (T := Nat))
        (fun n => n % 2 == 0) 5) 2
      ((filteredAsyncIterable (iterableToAsync (T := Nat))
        (fun n => n % 2 == 0) 5).stop ⟨false, [1, 2, 3]⟩)).1 =
      List.replicate 2 none :=
  (asyncIterable_stop_semantics iterableToAsync (fun n => n % 2 == 0)
    (fun n => [n])
    ⟨([] : List Nat), fun a _ => (a, false, (none : Option Nat)),
      fun _ => none⟩ 5 (fun _ => rfl)).1 2 ⟨false, [1, 2, 3]⟩

end Streamo
